import Mathlib

/-!
Verification development for the `perun` sankey-incremental diff view
(`perun/view_diff/sankey_incremental/run.py`).

The Python module builds, from two profiles (baseline and target), a graph of
positional call-context nodes (`uid#pos` strings), accumulates per-metric sums
on every edge, and serializes the graph with compact integer identifiers.

Shallow-embedding conventions:
* A positional identity string `uid#pos` is embedded as the structure `NKey`
  with fields `uid` and `pos`; building the string (f-string interpolation) and
  splitting it (`node.split("#")`) are the constructor and the projections.
  This is faithful whenever frame identifiers do not themselves contain `#`.
* Python dicts (which iterate in insertion order) are embedded as association
  lists that append fresh keys at the end; `defaultdict` access is an
  append-if-absent operation.
* The mutable `Graph` / process-global state is threaded explicitly: functions
  that mutate state take and return it.
* Python floats are embedded as `ℚ`.
* `Stats.KnownStats` is a Python `set`, whose iteration order is unspecified
  (for strings it is hash-dependent).  The embedding keeps the set's contents
  as a duplicate-free list (`known`, in insertion order, which is one faithful
  representation of the contents) and passes the iteration order used by
  `Stats.to_array` as an explicit enumeration parameter `ord`; a `List.Perm`
  side condition (`validEnum`) says `ord` enumerates exactly the contents.
-/

namespace Perun

/-- A positional identity, the embedding of the `f"{uid}#{pos}"` node strings:
`uid` is the label part before `#`, `pos` the integer after it. -/
structure NKey where
  uid : String
  pos : ℕ
deriving DecidableEq, Repr

/-- Profile role, the embedding of the `Literal["baseline", "target"]` strings. -/
inductive Role where
  | baseline
  | target
deriving DecidableEq, Repr

/-- A Python value as it occurs among a resource record's top-level values:
a number, a string, or a list (the `trace` entry). -/
inductive Val where
  | vnum (q : ℚ)
  | vstr (s : String)
  | vlist (l : List Val)

/-- Digits of a decimal literal folded into a natural number. -/
def digitsVal (l : List Char) : ℕ :=
  l.foldl (fun a c => 10 * a + (c.toNat - 48)) 0

/-- Parses a simple decimal numeral `[-]digits[.digits]` the way Python
`float(...)` accepts it (restricted to the plain decimal forms; the claims only
need that ordinary numeric strings convert and ordinary identifiers do not). -/
def parseNum (s : String) : Option ℚ :=
  let cs := s.toList
  let signed := cs ≠ [] ∧ cs.headI = '-'
  let body := if signed then cs.tail else cs
  let intPart := body.takeWhile Char.isDigit
  let rest := body.dropWhile Char.isDigit
  let core : Option ℚ :=
    match rest with
    | [] => if intPart = [] then none else some ((digitsVal intPart : ℚ))
    | '.' :: frac =>
        if frac.all Char.isDigit ∧ (intPart ≠ [] ∨ frac ≠ []) then
          some ((digitsVal intPart : ℚ) + (digitsVal frac : ℚ) / ((10 : ℚ) ^ frac.length))
        else none
    | _ => none
  core.map (fun q => if signed then -q else q)

/-- Modelled from the spec: `common_kit.try_convert(value, [float])` (the helper
itself is not under `src/`) returns the value converted to a number when the
conversion succeeds and `None` otherwise; non-numeric or unconvertible values
yield `None` (strings are parsed as decimal numerals, lists never convert). -/
def try_convert : Val → Option ℚ
  | Val.vnum q => some q
  | Val.vstr s => parseNum s
  | Val.vlist _ => none

/-- Modelled from the spec: `perun.profile.convert.to_uid` (not under `src/`)
maps a frame identifier to its uid string; string frames are their own uid. -/
def to_uid : Val → String
  | Val.vstr s => s
  | Val.vnum q => toString q
  | Val.vlist _ => ""

/-- Modelled from the spec: `common_kit.compact_convert_num_to_str(num, 2)`
(not under `src/`) renders a number with a fixed compact representation; the
claims do not depend on the exact rounding rule, so the canonical rational
rendering is used. -/
def compact_convert_num_to_str (q : ℚ) : String :=
  toString q

/-- Adds an element to a Python `set` represented by its duplicate-free
contents list (`Stats.KnownStats.add`). -/
def addKnown (known : List String) (k : String) : List String :=
  if k ∈ known then known else known ++ [k]

/-- The first-seen sublist of a list: folding `addKnown` from the empty set. -/
def firstSeen (l : List String) : List String :=
  l.foldl addKnown []

/-- Predicate saying `ord` is a possible iteration order of a Python set whose contents are the
duplicate-free list `known`. -/
def validEnum (known ord : List String) : Prop :=
  List.Perm ord known

instance (known ord : List String) : Decidable (validEnum known ord) := by
  unfold validEnum; infer_instance

/-- Embeds the `defaultdict(float)` update `m[k] += v`: adds `v` at key `k`, appending the
key (initialized from 0) when absent, preserving insertion order. -/
def addToMap (m : List (String × ℚ)) (k : String) (v : ℚ) : List (String × ℚ) :=
  match m with
  | [] => [(k, v)]
  | (k1, x) :: rest => if k1 = k then (k1, x + v) :: rest else (k1, x) :: addToMap rest k v

/-- Dict read with default `m.get(k, 0)`. -/
def lookupD (m : List (String × ℚ)) (k : String) : ℚ :=
  ((m.find? (fun p => p.1 = k)).map Prod.snd).getD 0

/-- Lookup in an id-assignment table. -/
def lookupIdx {α : Type} [DecidableEq α] (tab : List (α × ℕ)) (k : α) : Option ℕ :=
  (tab.find? (fun p => p.1 = k)).map Prod.snd

/-- Embeds `Stats`: per-edge accumulator with one metric-name→sum mapping per role
(`baseline`, `target`), each a `defaultdict(float)`. -/
structure Stats where
  baseline : List (String × ℚ)
  target : List (String × ℚ)
deriving DecidableEq, Repr

/-- Embeds `Stats()`: both mappings empty. -/
def Stats.empty : Stats := ⟨[], []⟩

/-- The mapping selected by a role (`self.baseline if stat_type == "baseline"
else self.target`). -/
def Stats.statsOf (s : Stats) : Role → List (String × ℚ)
  | Role.baseline => s.baseline
  | Role.target => s.target

/-- Embeds `Stats.add_stat`: registers the key in the process-global `KnownStats` set
and adds the value to the role's mapping.  The global set is threaded as the
`known` argument and returned alongside the updated accumulator. -/
def Stats.add_stat (s : Stats) (known : List String) (stat_type : Role) (stat_key : String)
    (stat_val : ℚ) : Stats × List String :=
  (match stat_type with
   | Role.baseline => { s with baseline := addToMap s.baseline stat_key stat_val }
   | Role.target => { s with target := addToMap s.target stat_key stat_val },
   addKnown known stat_key)

/-- Embeds `Stats.to_array`: one formatted number per element of the `KnownStats`
iteration order `ord`, reading the role's sum with default 0
(`stats.get(stat, 0)`). -/
def Stats.to_array (s : Stats) (ord : List String) (stat_type : Role) : List String :=
  ord.map (fun k => compact_convert_num_to_str (lookupD (s.statsOf stat_type) k))

/-- Embeds the `Graph` object.  `nodes` is the key list of the node table (the
`Node` objects themselves carry no data beyond their identity and their
adjacency, which is stored here globally): an entry `((src, tgt), stats)` of
`succs` is the `Link` stored at `src_node.succs[tgt]`, and an entry
`((src, tgt), stats)` of `preds` is the `Link` stored at `src_node.preds[tgt]`
(so `tgt` is always the `Link.target`).  Keeping the per-node link dicts as the
`src`-filtered sublists of one global insertion-ordered list preserves each
dict's insertion order. -/
structure Graph where
  nodes : List NKey
  uid_to_nodes : List (String × List NKey)
  uid_to_id : List (String × ℕ)
  stats_to_id : List (String × ℕ)
  succs : List ((NKey × NKey) × Stats)
  preds : List ((NKey × NKey) × Stats)
deriving DecidableEq, Repr

/-- Embeds `Graph()`: the empty graph. -/
def Graph.empty : Graph := ⟨[], [], [], [], [], []⟩

/-- Appends a node to `uid_to_nodes[uid]`, creating the `defaultdict` entry at
the end when the uid key is absent. -/
def pushNode : List (String × List NKey) → String → NKey → List (String × List NKey)
  | [], u, n => [(u, [n])]
  | (k, ns) :: rest, u, n =>
      if k = u then (k, ns ++ [n]) :: rest else (k, ns) :: pushNode rest u n

/-- Embeds `Graph.get_node`: assigns the uid the next compact id when unseen,
creates the node when unseen (appending it to `uid_to_nodes[uid]`), and leaves
everything else unchanged.  The Python method also returns the node object;
here the key `node` itself identifies it. -/
def Graph.get_node (g : Graph) (node : NKey) : Graph :=
  let g1 :=
    if node.uid ∈ g.uid_to_id.map Prod.fst then g
    else { g with uid_to_id := g.uid_to_id ++ [(node.uid, g.uid_to_id.length)] }
  if node ∈ g1.nodes then g1
  else { g1 with
         nodes := g1.nodes ++ [node],
         uid_to_nodes := pushNode g1.uid_to_nodes node.uid node }

/-- Embeds `Graph.translate_stats`: assigns the stats string the next compact
id when unseen.  The table is threaded explicitly (it lives in
`graph.stats_to_id`); the assigned id is returned alongside. -/
def translate_stats (tab : List (String × ℕ)) (s : String) : List (String × ℕ) × ℕ :=
  match lookupIdx tab s with
  | some i => (tab, i)
  | none => (tab ++ [(s, tab.length)], tab.length)

/-- Embeds `Graph.translate_node` on a bare uid or on the uid component of a
positional identity: reads `uid_to_id`. -/
def Graph.translate_node (g : Graph) (u : String) : ℕ :=
  (lookupIdx g.uid_to_id u).getD 0

/-- Embeds the creation part of `Graph.get_succ_stats`: creates the `src` node,
and when `src_node.succs` has no link for `tgt`, creates the `tgt` node and the
link with empty stats.  (The Python method returns the mutable `Stats` object;
in the functional embedding subsequent writes go through `updateLink`.) -/
def Graph.get_succ_stats (g : Graph) (src tgt : NKey) : Graph :=
  let g1 := g.get_node src
  if (src, tgt) ∈ g1.succs.map Prod.fst then g1
  else
    let g2 := g1.get_node tgt
    { g2 with succs := g2.succs ++ [((src, tgt), Stats.empty)] }

/-- Embeds the creation part of `Graph.get_pred_stats`, symmetrically on
`preds`. -/
def Graph.get_pred_stats (g : Graph) (src tgt : NKey) : Graph :=
  let g1 := g.get_node src
  if (src, tgt) ∈ g1.preds.map Prod.fst then g1
  else
    let g2 := g1.get_node tgt
    { g2 with preds := g2.preds ++ [((src, tgt), Stats.empty)] }

/-- Applies a stats update to the link stored at the given key (the write
through the `Stats` reference returned by `get_succ_stats`/`get_pred_stats`). -/
def updateLink (l : List ((NKey × NKey) × Stats)) (key : NKey × NKey) (f : Stats → Stats) :
    List ((NKey × NKey) × Stats) :=
  match l with
  | [] => []
  | (k, s) :: rest => if k = key then (k, f s) :: rest else (k, s) :: updateLink rest key f

/-- A resource record: its `uid` value, its `trace` value (a list of frame
identifiers), and the remaining top-level entries.  `entries` below rebuilds
the full dict the record is in Python. -/
structure Resource where
  uid : Val
  trace : List Val
  others : List (String × Val)

/-- The full top-level key/value list of the record's dict: `uid`, `trace` and
all other keys (candidate metrics). -/
def Resource.entries (r : Resource) : List (String × Val) :=
  ("uid", r.uid) :: ("trace", Val.vlist r.trace) :: r.others

/-- The processing state threaded through one diff run: the graph plus the
process-global `Stats.KnownStats` contents. -/
structure GState where
  graph : Graph
  known : List String
deriving Repr

/-- Processes one `(key, value)` entry of the resource dict inside the
`process_edge` loop: `continue` when the value does not convert, otherwise add
the amount to the successor link's stats and to the predecessor link's stats
(each `add_stat` also registers the key in `KnownStats`). -/
def edge_step (src tgt : NKey) (profile_type : Role) (acc : GState) (kv : String × Val) :
    GState :=
  match try_convert kv.2 with
  | none => acc
  | some amount =>
      let known1 := addKnown acc.known kv.1
      let g1 := { acc.graph with
                  succs := updateLink acc.graph.succs (src, tgt)
                    (fun s => (s.add_stat acc.known profile_type kv.1 amount).1) }
      let g2 := { g1 with
                  preds := updateLink g1.preds (tgt, src)
                    (fun s => (s.add_stat known1 profile_type kv.1 amount).1) }
      { graph := g2, known := known1 }

/-- Embeds `process_edge`: ensures the successor link `(src→tgt)` and the
predecessor link `(tgt→src)` exist, then for every top-level key of the
resource whose value converts to a number adds the amount to both links' stats
under the profile role (`continue` skips unconvertible values). -/
def process_edge (st : GState) (profile_type : Role) (resource : List (String × Val))
    (src tgt : NKey) : GState :=
  let g := (st.graph.get_succ_stats src tgt).get_pred_stats tgt src
  resource.foldl (edge_step src tgt profile_type) { st with graph := g }

/-- The full trace of a record: the converted trace frames followed by the
record's own converted uid (`full_trace` in `process_traces`). -/
def fullTrace (r : Resource) : List String :=
  r.trace.map to_uid ++ [to_uid r.uid]

/-- The positional edges one record expands to: none for a single frame; in
inclusive mode every consecutive pair of the full trace; in exclusive mode only
the final pair (`full_trace[-2] → full_trace[-1]`). -/
def traceEdges (inclusive : Bool) (ft : List String) : List (NKey × NKey) :=
  let n := ft.length
  if 1 < n then
    if inclusive then
      (List.range (n - 1)).map (fun i => (⟨ft.getD i "", i⟩, ⟨ft.getD (i + 1) "", i + 1⟩))
    else
      [(⟨ft.getD (n - 2) "", n - 2⟩, ⟨ft.getD (n - 1) "", n - 1⟩)]
  else []

/-- The edge expansion of one record. -/
def record_edge_calls (inclusive : Bool) (r : Resource) : List (NKey × NKey) :=
  traceEdges inclusive (fullTrace r)

/-- Embeds the body of the `process_traces` loop for one resource record:
mirrors the `trace_len > 1` guard and the inclusive/exclusive branch of the
source, calling `process_edge` with the whole resource dict for each edge. -/
def process_record (inclusive : Bool) (st : GState) (profile_type : Role) (r : Resource) :
    GState :=
  let ft := fullTrace r
  let n := ft.length
  if 1 < n then
    if inclusive then
      (List.range (n - 1)).foldl
        (fun s i =>
          process_edge s profile_type r.entries ⟨ft.getD i "", i⟩ ⟨ft.getD (i + 1) "", i + 1⟩)
        st
    else
      process_edge st profile_type r.entries ⟨ft.getD (n - 2) "", n - 2⟩ ⟨ft.getD (n - 1) "", n - 1⟩
  else st

/-- Embeds `process_traces`: processes every resource record of the profile in
order (`all_resources` yields `(key, resource)` pairs whose key is unused, so a
profile's payload is its resource list). -/
def process_traces (inclusive : Bool) (st : GState) (profile_type : Role)
    (resources : List Resource) : GState :=
  resources.foldl (fun s r => process_record inclusive s profile_type r) st

/-- Link direction selector (`Literal["succs", "preds"]`). -/
inductive LType where
  | succs
  | preds
deriving DecidableEq, Repr

/-- Embeds `Node.get_links` at the graph level: the global link list of the
requested direction. -/
def Graph.linksOf (g : Graph) : LType → List ((NKey × NKey) × Stats)
  | LType.succs => g.succs
  | LType.preds => g.preds

/-- The link dict of one node in one direction (`node.get_links(link_type)`):
the entries whose source is the node, in insertion order, each as
`(Link.target, Link.stats)`. -/
def nodeLinks (g : Graph) (lt : LType) (n : NKey) : List (NKey × Stats) :=
  (g.linksOf lt).filterMap (fun e => if e.1.1 = n then some (e.1.2, e.2) else none)

/-- The string under which a link's stats are interned by `to_jinja_string`:
`"[" + ",".join(to_array("baseline") + to_array("target")) + "]"`. -/
def statsKey (ord : List String) (s : Stats) : String :=
  "[" ++ String.intercalate "," (s.to_array ord Role.baseline ++ s.to_array ord Role.target) ++ "]"

/-- The iteration skeleton of `to_jinja_string`: per `uid_to_nodes` entry (in
dict insertion order) the uid's compact id and, per node of that uid (in list
order), the node's `get_order()` position. -/
def encSkeleton (g : Graph) : List (ℕ × List ℕ) :=
  g.uid_to_nodes.map (fun p => (g.translate_node p.1, p.2.map (fun n => n.pos)))

/-- The per-edge stats accumulators in the order `to_jinja_string` visits them
(outer loop `uid_to_nodes`, inner loop the uid's nodes, innermost the node's
links in the requested direction). -/
def emittedStats (g : Graph) (lt : LType) : List Stats :=
  g.uid_to_nodes.flatMap
    (fun p => p.2.flatMap (fun n => (nodeLinks g lt n).map Prod.snd))

/-- The stats vector emitted for every visited link: the baseline block then
the target block. -/
def emittedVecs (ord : List String) (g : Graph) (lt : LType) : List (List String) :=
  (emittedStats g lt).map (fun s => s.to_array ord Role.baseline ++ s.to_array ord Role.target)

/-- The interned stats strings in emission order. -/
def emittedKeys (ord : List String) (g : Graph) (lt : LType) : List String :=
  (emittedStats g lt).map (statsKey ord)

/-- The `stats_to_id` table after one `to_jinja_string` pass: every emitted
stats string interned by `translate_stats` in emission order. -/
def encTable (ord : List String) (g : Graph) (lt : LType) (tab : List (String × ℕ)) :
    List (String × ℕ) :=
  (emittedKeys ord g lt).foldl (fun t k => (translate_stats t k).1) tab

/-- The conjunction of the two `assert` statements of `to_jinja_string`,
checked over the same iteration the source performs: for successor links the
target position is the source position plus one, for predecessor links the
source position is the target position plus one. -/
def encAssert (g : Graph) (lt : LType) : Bool :=
  g.uid_to_nodes.all
    (fun p => p.2.all
      (fun n => (nodeLinks g lt n).all
        (fun q =>
          match lt with
          | LType.succs => n.pos + 1 == q.1.pos
          | LType.preds => n.pos == q.1.pos + 1)))

/-- Stable insertion into a list sorted by a natural-number key (the building
block of the embedding of Python's stable `sorted`). -/
def insertBy {α : Type} (key : α → ℕ) (a : α) : List α → List α
  | [] => [a]
  | b :: bs => if key a ≤ key b then a :: b :: bs else b :: insertBy key a bs

/-- Embeds Python's stable `sorted(l, key=...)` for a natural-number key. -/
def sortOn {α : Type} (key : α → ℕ) (l : List α) : List α :=
  l.foldr (insertBy key) []

/-- A profile as the diff engine consumes it: the optional
`collector_info.name` metadata and the resource records. -/
structure Profile where
  collector : Option String
  resources : List Resource

/-- The process-global mutable state surviving across diff runs: the singleton
`Config` flag `trace_is_inclusive` and the `Stats.KnownStats` class attribute
contents. -/
structure ProcState where
  trace_is_inclusive : Bool
  known : List String
deriving Repr

/-- The information content of the rendered template variables produced by
`generate_sankey_difference`: the iteration skeletons and emitted stats vectors
of the two `to_jinja_string` passes, the `stats` side table (the interned stats
strings sorted by compact id), the `nodes` table (uids sorted by compact id)
and the `node_map` table (per uid of `uid_to_nodes`, sorted by the uid's
compact id, the ascending-sorted node positions). -/
structure Output where
  succ_skel : List (ℕ × List ℕ)
  succ_vecs : List (List String)
  pred_skel : List (ℕ × List ℕ)
  pred_vecs : List (List String)
  statsTab : List String
  nodesTab : List String
  node_map : List (List ℕ)
deriving DecidableEq, Repr

/-- The effective inclusiveness for one run: `generate_sankey_difference` sets
the singleton flag to true when the baseline profile's collector is `kperf`,
otherwise the (persisted) flag is used. -/
def inclOf (st : ProcState) (lhs : Profile) : Bool :=
  if lhs.collector = some "kperf" then true else st.trace_is_inclusive

/-- The graph/registry state after both profiles of one run are processed
(baseline then target) against a fresh graph. -/
def runProfiles (inclusive : Bool) (known : List String) (lhs rhs : Profile) : GState :=
  process_traces inclusive
    (process_traces inclusive ⟨Graph.empty, known⟩ Role.baseline lhs.resources)
    Role.target rhs.resources

/-- Embeds `generate_sankey_difference`: updates the singleton config from the
baseline collector, processes both profiles into a fresh graph, renders the
successor pass then the predecessor pass (interning stats strings across both,
in that order), and collects the side tables.  `ord` is the iteration order of
the `KnownStats` set during encoding.  Returns the surviving process-global
state and the output content. -/
def generate (ord : List String) (st : ProcState) (lhs rhs : Profile) : ProcState × Output :=
  let incl := inclOf st lhs
  let gs := runProfiles incl st.known lhs rhs
  let g := gs.graph
  let tab1 := encTable ord g LType.succs []
  let tab2 := encTable ord g LType.preds tab1
  ( { trace_is_inclusive := incl, known := gs.known },
    { succ_skel := encSkeleton g,
      succ_vecs := emittedVecs ord g LType.succs,
      pred_skel := encSkeleton g,
      pred_vecs := emittedVecs ord g LType.preds,
      statsTab := (sortOn Prod.snd tab2).map Prod.fst,
      nodesTab := (sortOn Prod.snd g.uid_to_id).map Prod.fst,
      node_map := (sortOn (fun p => g.translate_node p.1) g.uid_to_nodes).map
        (fun p => sortOn id (p.2.map (fun n => n.pos))) } )

/-! Helper lemmas. -/

theorem foldl_inv {α σ : Type} (P : σ → Prop) (f : σ → α → σ)
    (h : ∀ s a, P s → P (f s a)) :
    ∀ (l : List α) (s : σ), P s → P (l.foldl f s) := by
  intro l
  induction l with
  | nil => intro s hs; exact hs
  | cons a t ih => intro s hs; exact ih _ (h s a hs)

theorem mem_addKnown (l : List String) (k a : String) :
    a ∈ addKnown l k ↔ a ∈ l ∨ a = k := by
  unfold addKnown
  split
  · constructor
    · exact Or.inl
    · rintro (h | rfl) <;> assumption
  · simp

theorem addKnown_nodup (l : List String) (k : String) (h : l.Nodup) :
    (addKnown l k).Nodup := by
  unfold addKnown
  split
  · exact h
  · rename_i hk
    exact List.Nodup.append h (List.nodup_singleton k)
      (fun a ha hb => hk ((List.mem_singleton.mp hb) ▸ ha))

theorem lookupD_nil (k : String) : lookupD [] k = 0 := rfl

theorem lookupD_cons (k1 : String) (x : ℚ) (m : List (String × ℚ)) (k : String) :
    lookupD ((k1, x) :: m) k = if k1 = k then x else lookupD m k := by
  unfold lookupD
  by_cases h : k1 = k
  · rw [List.find?_cons_of_pos _ (by simpa using h)]
    simp [h]
  · rw [List.find?_cons_of_neg _ (by simpa using h)]
    simp [h]

theorem addToMap_cons (k1 : String) (x : ℚ) (rest : List (String × ℚ)) (k : String) (v : ℚ) :
    addToMap ((k1, x) :: rest) k v
      = if k1 = k then (k1, x + v) :: rest else (k1, x) :: addToMap rest k v := rfl

theorem lookupD_addToMap_self (m : List (String × ℚ)) (k : String) (v : ℚ) :
    lookupD (addToMap m k v) k = lookupD m k + v := by
  induction m with
  | nil => simp [addToMap, lookupD_cons, lookupD_nil]
  | cons p rest ih =>
      obtain ⟨k1, x⟩ := p
      rw [addToMap_cons]
      by_cases hk : k1 = k
      · rw [if_pos hk, lookupD_cons, lookupD_cons, if_pos hk, if_pos hk]
      · rw [if_neg hk, lookupD_cons, lookupD_cons, if_neg hk, if_neg hk, ih]

theorem lookupD_addToMap_ne (m : List (String × ℚ)) (k k2 : String) (v : ℚ) (h : k2 ≠ k) :
    lookupD (addToMap m k v) k2 = lookupD m k2 := by
  induction m with
  | nil =>
      show lookupD [(k, v)] k2 = lookupD [] k2
      rw [lookupD_cons, if_neg (fun hh => h (Eq.symm hh))]
  | cons p rest ih =>
      obtain ⟨k1, x⟩ := p
      rw [addToMap_cons]
      by_cases hk : k1 = k
      · rw [if_pos hk]
        have hne : k1 ≠ k2 := fun hh => h (hh.symm.trans hk)
        rw [lookupD_cons, lookupD_cons, if_neg hne, if_neg hne]
      · rw [if_neg hk, lookupD_cons, lookupD_cons, ih]

theorem lookupD_eq_zero_of_not_mem (m : List (String × ℚ)) (k : String)
    (h : k ∉ m.map Prod.fst) : lookupD m k = 0 := by
  unfold lookupD
  rw [List.find?_eq_none.mpr]
  · rfl
  · intro p hp
    simp only [decide_eq_true_eq]
    intro hk
    exact h (List.mem_map.mpr ⟨p, hp, hk⟩)

/-! Field-stability lemmas for the graph operations. -/

theorem get_node_succs (g : Graph) (n : NKey) : (g.get_node n).succs = g.succs := by
  simp only [Graph.get_node]
  split <;> split <;> rfl

theorem get_node_preds (g : Graph) (n : NKey) : (g.get_node n).preds = g.preds := by
  simp only [Graph.get_node]
  split <;> split <;> rfl

theorem get_node_stats_to_id (g : Graph) (n : NKey) :
    (g.get_node n).stats_to_id = g.stats_to_id := by
  simp only [Graph.get_node]
  split <;> split <;> rfl

theorem get_succ_stats_preds (g : Graph) (src tgt : NKey) :
    (g.get_succ_stats src tgt).preds = g.preds := by
  simp only [Graph.get_succ_stats]
  split
  · exact get_node_preds g src
  · simp only [get_node_preds]

theorem get_pred_stats_succs (g : Graph) (src tgt : NKey) :
    (g.get_pred_stats src tgt).succs = g.succs := by
  simp only [Graph.get_pred_stats]
  split
  · exact get_node_succs g src
  · simp only [get_node_succs]

theorem updateLink_map_fst (l : List ((NKey × NKey) × Stats)) (key : NKey × NKey)
    (f : Stats → Stats) : (updateLink l key f).map Prod.fst = l.map Prod.fst := by
  induction l with
  | nil => rfl
  | cons e rest ih =>
      obtain ⟨k, s⟩ := e
      unfold updateLink
      split <;> simp [ih]

/-! Lemmas about `pushNode` (the `defaultdict(list)` append). -/

theorem pushNode_map_fst_of_mem (l : List (String × List NKey)) (u : String) (n : NKey)
    (h : u ∈ l.map Prod.fst) : (pushNode l u n).map Prod.fst = l.map Prod.fst := by
  induction l with
  | nil => simp at h
  | cons p rest ih =>
      obtain ⟨k, ns⟩ := p
      unfold pushNode
      by_cases hk : k = u
      · rw [if_pos hk]; simp
      · rw [if_neg hk]
        have hmem : u ∈ rest.map Prod.fst := by
          rcases List.mem_map.mp h with ⟨q, hq, hqu⟩
          rcases List.mem_cons.mp hq with rfl | hq2
          · exact absurd hqu hk
          · exact List.mem_map.mpr ⟨q, hq2, hqu⟩
        simp [ih hmem]

theorem pushNode_of_not_mem (l : List (String × List NKey)) (u : String) (n : NKey)
    (h : u ∉ l.map Prod.fst) : pushNode l u n = l ++ [(u, [n])] := by
  induction l with
  | nil => rfl
  | cons p rest ih =>
      obtain ⟨k, ns⟩ := p
      unfold pushNode
      have hk : k ≠ u := fun hh => h (by simp [hh])
      rw [if_neg hk, ih (fun hh => h (by simp [hh]))]
      simp

theorem pushNode_mem_char (l : List (String × List NKey)) (u : String) (n : NKey)
    (hnd : (l.map Prod.fst).Nodup) :
    ∀ p ∈ pushNode l u n,
      (p.1 ≠ u ∧ p ∈ l)
      ∨ (∃ ns, (u, ns) ∈ l ∧ p = (u, ns ++ [n]))
      ∨ (p = (u, [n]) ∧ u ∉ l.map Prod.fst) := by
  induction l with
  | nil =>
      intro p hp
      rcases List.mem_singleton.mp hp with rfl
      exact Or.inr (Or.inr ⟨rfl, by simp⟩)
  | cons q rest ih =>
      obtain ⟨k, ns⟩ := q
      intro p hp
      unfold pushNode at hp
      by_cases hk : k = u
      · subst hk
        rw [if_pos rfl] at hp
        rcases List.mem_cons.mp hp with rfl | hp2
        · exact Or.inr (Or.inl ⟨ns, List.mem_cons_self _ _, rfl⟩)
        · have hku : p.1 ≠ k := by
            intro hpk
            have : p.1 ∈ rest.map Prod.fst := List.mem_map.mpr ⟨p, hp2, rfl⟩
            rw [hpk] at this
            exact (List.nodup_cons.mp (by simpa using hnd)).1 this
          exact Or.inl ⟨hku, List.mem_cons_of_mem _ hp2⟩
      · rw [if_neg hk] at hp
        rcases List.mem_cons.mp hp with rfl | hp2
        · exact Or.inl ⟨hk, List.mem_cons_self _ _⟩
        · have hnd2 : (rest.map Prod.fst).Nodup := (List.nodup_cons.mp (by simpa using hnd)).2
          rcases ih hnd2 p hp2 with ⟨h1, h2⟩ | ⟨ms, hm, he⟩ | ⟨he, hu⟩
          · exact Or.inl ⟨h1, List.mem_cons_of_mem _ h2⟩
          · exact Or.inr (Or.inl ⟨ms, List.mem_cons_of_mem _ hm, he⟩)
          · refine Or.inr (Or.inr ⟨he, ?_⟩)
            intro hmem
            rw [List.map_cons] at hmem
            rcases List.mem_cons.mp hmem with h | h
            · exact hk h.symm
            · exact hu h

/-! Reduction lemmas for `Graph.get_node` by case. -/

theorem get_node_of_mem_mem (g : Graph) (k : NKey)
    (h1 : k.uid ∈ g.uid_to_id.map Prod.fst) (h2 : k ∈ g.nodes) : g.get_node k = g := by
  simp [Graph.get_node, h1, h2]

theorem get_node_of_mem_not_mem (g : Graph) (k : NKey)
    (h1 : k.uid ∈ g.uid_to_id.map Prod.fst) (h2 : k ∉ g.nodes) :
    g.get_node k
      = ⟨g.nodes ++ [k], pushNode g.uid_to_nodes k.uid k, g.uid_to_id, g.stats_to_id,
          g.succs, g.preds⟩ := by
  simp [Graph.get_node, h1, h2]

theorem get_node_of_not_mem (g : Graph) (k : NKey)
    (h1 : k.uid ∉ g.uid_to_id.map Prod.fst) (h2 : k ∉ g.nodes) :
    g.get_node k
      = ⟨g.nodes ++ [k], pushNode g.uid_to_nodes k.uid k,
          g.uid_to_id ++ [(k.uid, g.uid_to_id.length)], g.stats_to_id,
          g.succs, g.preds⟩ := by
  simp [Graph.get_node, h1, h2]

/-- The structural invariant of the node/uid tables maintained by
`Graph.get_node`: compact ids are the positions in the insertion-ordered uid
table, uid keys are unique, `uid_to_nodes` lists the uids in the same order,
the node table is duplicate-free, every per-uid node list is exactly the
global creation-ordered node list restricted to that uid, and every node's uid
is registered. -/
def GInv (g : Graph) : Prop :=
  g.uid_to_id.map Prod.snd = List.range g.uid_to_id.length
  ∧ (g.uid_to_id.map Prod.fst).Nodup
  ∧ g.uid_to_nodes.map Prod.fst = g.uid_to_id.map Prod.fst
  ∧ g.nodes.Nodup
  ∧ (∀ p ∈ g.uid_to_nodes, p.2 = g.nodes.filter (fun n => n.uid = p.1))
  ∧ (∀ n ∈ g.nodes, n.uid ∈ g.uid_to_id.map Prod.fst)

theorem GInv_empty : GInv Graph.empty := by
  refine ⟨rfl, ?_, rfl, ?_, ?_, ?_⟩ <;> simp [Graph.empty]

theorem filter_singleton_nil (k : NKey) (u : String) (h : k.uid ≠ u) :
    [k].filter (fun n => n.uid = u) = [] := by
  simp [List.filter, h]

theorem filter_singleton_self (k : NKey) (u : String) (h : k.uid = u) :
    [k].filter (fun n => n.uid = u) = [k] := by
  simp [List.filter, h]

theorem GInv_get_node (g : Graph) (k : NKey) (h : GInv g) : GInv (g.get_node k) := by
  obtain ⟨h1, h2, h3, h4, h5, h6⟩ := h
  by_cases hu : k.uid ∈ g.uid_to_id.map Prod.fst
  · by_cases hn : k ∈ g.nodes
    · rw [get_node_of_mem_mem g k hu hn]
      exact ⟨h1, h2, h3, h4, h5, h6⟩
    · rw [get_node_of_mem_not_mem g k hu hn]
      have hnd3 : (g.uid_to_nodes.map Prod.fst).Nodup := h3 ▸ h2
      refine ⟨h1, h2, ?_, ?_, ?_, ?_⟩
      · show List.map Prod.fst (pushNode g.uid_to_nodes k.uid k) = List.map Prod.fst g.uid_to_id
        rw [pushNode_map_fst_of_mem _ _ _ (h3 ▸ hu)]
        exact h3
      · show (g.nodes ++ [k]).Nodup
        exact List.Nodup.append h4 (List.nodup_singleton k)
          (fun a ha hb => hn ((List.mem_singleton.mp hb) ▸ ha))
      · show ∀ p ∈ pushNode g.uid_to_nodes k.uid k,
            p.2 = (g.nodes ++ [k]).filter (fun n => n.uid = p.1)
        intro p hp
        rcases pushNode_mem_char g.uid_to_nodes k.uid k hnd3 p hp with
          ⟨hne, hmem⟩ | ⟨ns, hm, he⟩ | ⟨_, habs⟩
        · rw [h5 p hmem, List.filter_append,
            filter_singleton_nil k p.1 (fun hh => hne hh.symm), List.append_nil]
        · have hns : ns = g.nodes.filter (fun n => n.uid = k.uid) := h5 (k.uid, ns) hm
          rw [he]
          show ns ++ [k] = (g.nodes ++ [k]).filter (fun n => n.uid = k.uid)
          rw [List.filter_append, filter_singleton_self k k.uid rfl, ← hns]
        · exact absurd (h3 ▸ hu) habs
      · show ∀ n ∈ g.nodes ++ [k], n.uid ∈ List.map Prod.fst g.uid_to_id
        intro n hn2
        rcases List.mem_append.mp hn2 with hl | hr
        · exact h6 n hl
        · rw [List.mem_singleton.mp hr]
          exact hu
  · have hn : k ∉ g.nodes := fun hk => hu (h6 k hk)
    rw [get_node_of_not_mem g k hu hn]
    have hfilter : g.nodes.filter (fun n => n.uid = k.uid) = [] := by
      rw [List.filter_eq_nil_iff]
      intro n hmem
      simp only [decide_eq_true_eq]
      intro hh
      exact hu (hh ▸ h6 n hmem)
    refine ⟨?_, ?_, ?_, ?_, ?_, ?_⟩
    · show List.map Prod.snd (g.uid_to_id ++ [(k.uid, g.uid_to_id.length)])
          = List.range (g.uid_to_id ++ [(k.uid, g.uid_to_id.length)]).length
      rw [List.map_append, h1, List.length_append]
      simp [List.range_succ]
    · show (List.map Prod.fst (g.uid_to_id ++ [(k.uid, g.uid_to_id.length)])).Nodup
      rw [List.map_append]
      exact List.Nodup.append h2 (by simp)
        (fun a ha hb => hu ((by simpa using hb : a = k.uid) ▸ ha))
    · show List.map Prod.fst (pushNode g.uid_to_nodes k.uid k)
          = List.map Prod.fst (g.uid_to_id ++ [(k.uid, g.uid_to_id.length)])
      rw [pushNode_of_not_mem _ _ _ (h3 ▸ hu), List.map_append, List.map_append, h3]
      simp
    · show (g.nodes ++ [k]).Nodup
      exact List.Nodup.append h4 (List.nodup_singleton k)
        (fun a ha hb => hn ((List.mem_singleton.mp hb) ▸ ha))
    · show ∀ p ∈ pushNode g.uid_to_nodes k.uid k,
          p.2 = (g.nodes ++ [k]).filter (fun n => n.uid = p.1)
      rw [pushNode_of_not_mem _ _ _ (h3 ▸ hu)]
      intro p hp
      rcases List.mem_append.mp hp with hmem | hnew
      · have hne : k.uid ≠ p.1 := fun hh => hu (hh ▸ (h3 ▸ List.mem_map.mpr ⟨p, hmem, rfl⟩))
        rw [h5 p hmem, List.filter_append, filter_singleton_nil k p.1 hne, List.append_nil]
      · rw [List.mem_singleton.mp hnew]
        show [k] = (g.nodes ++ [k]).filter (fun n => n.uid = k.uid)
        rw [List.filter_append, filter_singleton_self k k.uid rfl, hfilter, List.nil_append]
    · show ∀ n ∈ g.nodes ++ [k],
          n.uid ∈ List.map Prod.fst (g.uid_to_id ++ [(k.uid, g.uid_to_id.length)])
      intro n hn2
      rw [List.map_append]
      rcases List.mem_append.mp hn2 with hl | hr
      · exact List.mem_append.mpr (Or.inl (h6 n hl))
      · rw [List.mem_singleton.mp hr]
        exact List.mem_append.mpr (Or.inr (by simp))

/-! GInv is preserved by every graph operation: only `get_node` touches the
node/uid tables. -/

theorem GInv_fields (g g2 : Graph) (hn : g2.nodes = g.nodes)
    (hun : g2.uid_to_nodes = g.uid_to_nodes) (hui : g2.uid_to_id = g.uid_to_id)
    (h : GInv g) : GInv g2 := by
  unfold GInv at h ⊢
  rw [hn, hun, hui]
  exact h

theorem GInv_get_succ_stats (g : Graph) (src tgt : NKey) (h : GInv g) :
    GInv (g.get_succ_stats src tgt) := by
  simp only [Graph.get_succ_stats]
  split
  · exact GInv_get_node _ _ h
  · exact GInv_fields _ _ rfl rfl rfl (GInv_get_node _ _ (GInv_get_node _ _ h))

theorem GInv_get_pred_stats (g : Graph) (src tgt : NKey) (h : GInv g) :
    GInv (g.get_pred_stats src tgt) := by
  simp only [Graph.get_pred_stats]
  split
  · exact GInv_get_node _ _ h
  · exact GInv_fields _ _ rfl rfl rfl (GInv_get_node _ _ (GInv_get_node _ _ h))

theorem edge_step_nodes (src tgt : NKey) (pt : Role) (acc : GState) (kv : String × Val) :
    (edge_step src tgt pt acc kv).graph.nodes = acc.graph.nodes := by
  unfold edge_step
  cases try_convert kv.2 <;> rfl

theorem edge_step_uid_to_nodes (src tgt : NKey) (pt : Role) (acc : GState)
    (kv : String × Val) :
    (edge_step src tgt pt acc kv).graph.uid_to_nodes = acc.graph.uid_to_nodes := by
  unfold edge_step
  cases try_convert kv.2 <;> rfl

theorem edge_step_uid_to_id (src tgt : NKey) (pt : Role) (acc : GState) (kv : String × Val) :
    (edge_step src tgt pt acc kv).graph.uid_to_id = acc.graph.uid_to_id := by
  unfold edge_step
  cases try_convert kv.2 <;> rfl

theorem GState_graph_mk (g : Graph) (kn : List String) : GState.graph ⟨g, kn⟩ = g := rfl

theorem GState_known_mk (g : Graph) (kn : List String) : GState.known ⟨g, kn⟩ = kn := rfl

/-- Unfolding equation for `process_edge` with the start state in constructor
form. -/
theorem process_edge_eq (st : GState) (pt : Role) (res : List (String × Val))
    (src tgt : NKey) :
    process_edge st pt res src tgt
      = res.foldl (edge_step src tgt pt)
          ⟨(st.graph.get_succ_stats src tgt).get_pred_stats tgt src, st.known⟩ := rfl

theorem GInv_process_edge (st : GState) (pt : Role) (res : List (String × Val))
    (src tgt : NKey) (h : GInv st.graph) : GInv (process_edge st pt res src tgt).graph := by
  rw [process_edge_eq]
  refine foldl_inv (fun s : GState => GInv s.graph) (edge_step src tgt pt) ?_ res _ ?_
  · intro s kv hs
    exact GInv_fields _ _ (edge_step_nodes _ _ _ _ _)
      (edge_step_uid_to_nodes _ _ _ _ _) (edge_step_uid_to_id _ _ _ _ _) hs
  · show GInv (GState.graph ⟨(st.graph.get_succ_stats src tgt).get_pred_stats tgt src, st.known⟩)
    rw [GState_graph_mk]
    exact GInv_get_pred_stats _ _ _ (GInv_get_succ_stats _ _ _ h)

theorem GInv_process_record (incl : Bool) (st : GState) (pt : Role) (r : Resource)
    (h : GInv st.graph) : GInv (process_record incl st pt r).graph := by
  simp only [process_record]
  by_cases hn : 1 < (fullTrace r).length
  · simp only [if_pos hn]
    cases incl
    · simp only [Bool.false_eq_true, if_false]
      exact GInv_process_edge _ _ _ _ _ h
    · simp only [if_true]
      apply foldl_inv (fun s : GState => GInv s.graph) _
        (fun s i hs => GInv_process_edge _ _ _ _ _ hs)
      exact h
  · simp only [if_neg hn]
    exact h

theorem GInv_process_traces (incl : Bool) (st : GState) (pt : Role) (rs : List Resource)
    (h : GInv st.graph) : GInv (process_traces incl st pt rs).graph := by
  unfold process_traces
  apply foldl_inv (fun s : GState => GInv s.graph) _
    (fun s r hs => GInv_process_record _ _ _ _ hs)
  exact h

theorem GInv_runProfiles (incl : Bool) (known : List String) (lhs rhs : Profile) :
    GInv (runProfiles incl known lhs rhs).graph :=
  GInv_process_traces _ _ _ _ (GInv_process_traces _ _ _ _ GInv_empty)

/-! The adjacency invariant: every successor link goes one position forward,
every predecessor link one position back. -/

/-- Position adjacency of all stored links: successor links target position
`source + 1`, predecessor links target position `source - 1`. -/
def AdjInv (g : Graph) : Prop :=
  (∀ e ∈ g.succs, e.1.2.pos = e.1.1.pos + 1) ∧ (∀ e ∈ g.preds, e.1.1.pos = e.1.2.pos + 1)

theorem AdjInv_empty : AdjInv Graph.empty := by
  constructor <;> intro e he <;> simp [Graph.empty] at he

theorem get_succ_stats_succs_sub (g : Graph) (src tgt : NKey) :
    (g.get_succ_stats src tgt).succs = g.succs
    ∨ (g.get_succ_stats src tgt).succs = g.succs ++ [((src, tgt), Stats.empty)] := by
  simp only [Graph.get_succ_stats]
  split
  · exact Or.inl (get_node_succs g src)
  · right
    show ((g.get_node src).get_node tgt).succs ++ [((src, tgt), Stats.empty)]
        = g.succs ++ [((src, tgt), Stats.empty)]
    rw [get_node_succs, get_node_succs]

theorem get_pred_stats_preds_sub (g : Graph) (src tgt : NKey) :
    (g.get_pred_stats src tgt).preds = g.preds
    ∨ (g.get_pred_stats src tgt).preds = g.preds ++ [((src, tgt), Stats.empty)] := by
  simp only [Graph.get_pred_stats]
  split
  · exact Or.inl (get_node_preds g src)
  · right
    show ((g.get_node src).get_node tgt).preds ++ [((src, tgt), Stats.empty)]
        = g.preds ++ [((src, tgt), Stats.empty)]
    rw [get_node_preds, get_node_preds]

theorem AdjInv_get_succ_stats (g : Graph) (src tgt : NKey) (hadj : tgt.pos = src.pos + 1)
    (h : AdjInv g) : AdjInv (g.get_succ_stats src tgt) := by
  obtain ⟨hS, hP⟩ := h
  constructor
  · intro e hmem
    rcases get_succ_stats_succs_sub g src tgt with he | he <;> rw [he] at hmem
    · exact hS e hmem
    · rcases List.mem_append.mp hmem with h1 | h1
      · exact hS e h1
      · rw [List.mem_singleton.mp h1]
        exact hadj
  · intro e hmem
    rw [get_succ_stats_preds] at hmem
    exact hP e hmem

theorem AdjInv_get_pred_stats (g : Graph) (src tgt : NKey) (hadj : src.pos = tgt.pos + 1)
    (h : AdjInv g) : AdjInv (g.get_pred_stats src tgt) := by
  obtain ⟨hS, hP⟩ := h
  constructor
  · intro e hmem
    rw [get_pred_stats_succs] at hmem
    exact hS e hmem
  · intro e hmem
    rcases get_pred_stats_preds_sub g src tgt with he | he <;> rw [he] at hmem
    · exact hP e hmem
    · rcases List.mem_append.mp hmem with h1 | h1
      · exact hP e h1
      · rw [List.mem_singleton.mp h1]
        exact hadj

theorem updateLink_key_mem (l : List ((NKey × NKey) × Stats)) (key : NKey × NKey)
    (f : Stats → Stats) (e : (NKey × NKey) × Stats) (he : e ∈ updateLink l key f) :
    ∃ s0, (e.1, s0) ∈ l := by
  have hmem : e.1 ∈ (updateLink l key f).map Prod.fst := List.mem_map.mpr ⟨e, he, rfl⟩
  rw [updateLink_map_fst] at hmem
  rcases List.mem_map.mp hmem with ⟨p, hp, hpe⟩
  refine ⟨p.2, ?_⟩
  rw [← hpe]
  simpa using hp

theorem AdjInv_update (g : Graph) (k1 k2 : NKey × NKey) (f1 f2 : Stats → Stats)
    (h : AdjInv g) :
    AdjInv ⟨g.nodes, g.uid_to_nodes, g.uid_to_id, g.stats_to_id,
      updateLink g.succs k1 f1, updateLink g.preds k2 f2⟩ := by
  obtain ⟨hS, hP⟩ := h
  constructor
  · intro e hmem
    rcases updateLink_key_mem g.succs k1 f1 e hmem with ⟨s0, hs0⟩
    exact hS (e.1, s0) hs0
  · intro e hmem
    rcases updateLink_key_mem g.preds k2 f2 e hmem with ⟨s0, hs0⟩
    exact hP (e.1, s0) hs0

theorem AdjInv_edge_step (src tgt : NKey) (pt : Role) (acc : GState) (kv : String × Val)
    (h : AdjInv acc.graph) : AdjInv (edge_step src tgt pt acc kv).graph := by
  unfold edge_step
  cases try_convert kv.2 with
  | none => exact h
  | some amount => exact AdjInv_update acc.graph (src, tgt) (tgt, src) _ _ h

theorem AdjInv_process_edge (st : GState) (pt : Role) (res : List (String × Val))
    (src tgt : NKey) (hadj : tgt.pos = src.pos + 1) (h : AdjInv st.graph) :
    AdjInv (process_edge st pt res src tgt).graph := by
  rw [process_edge_eq]
  refine foldl_inv (fun s : GState => AdjInv s.graph) (edge_step src tgt pt) ?_ res _ ?_
  · intro s kv hs
    exact AdjInv_edge_step _ _ _ _ _ hs
  · show AdjInv (GState.graph
      ⟨(st.graph.get_succ_stats src tgt).get_pred_stats tgt src, st.known⟩)
    rw [GState_graph_mk]
    exact AdjInv_get_pred_stats _ _ _ hadj (AdjInv_get_succ_stats _ _ _ hadj h)

theorem AdjInv_process_record (incl : Bool) (st : GState) (pt : Role) (r : Resource)
    (h : AdjInv st.graph) : AdjInv (process_record incl st pt r).graph := by
  simp only [process_record]
  by_cases hn : 1 < (fullTrace r).length
  · simp only [if_pos hn]
    cases incl
    · simp only [Bool.false_eq_true, if_false]
      refine AdjInv_process_edge _ _ _ _ _ ?_ h
      show (fullTrace r).length - 1 = (fullTrace r).length - 2 + 1
      omega
    · simp only [if_true]
      refine foldl_inv (fun s : GState => AdjInv s.graph) _ ?_ (List.range _) _ h
      intro s i hs
      exact AdjInv_process_edge _ _ _ _ _ rfl hs
  · simp only [if_neg hn]
    exact h

theorem AdjInv_process_traces (incl : Bool) (st : GState) (pt : Role) (rs : List Resource)
    (h : AdjInv st.graph) : AdjInv (process_traces incl st pt rs).graph := by
  unfold process_traces
  apply foldl_inv (fun s : GState => AdjInv s.graph) _
    (fun s r hs => AdjInv_process_record _ _ _ _ hs)
  exact h

theorem AdjInv_runProfiles (incl : Bool) (known : List String) (lhs rhs : Profile) :
    AdjInv (runProfiles incl known lhs rhs).graph :=
  AdjInv_process_traces _ _ _ _ (AdjInv_process_traces _ _ _ _ AdjInv_empty)

/-! From the adjacency invariant to the encoder assertions. -/

theorem nodeLinks_mem (g : Graph) (lt : LType) (n : NKey) (q : NKey × Stats)
    (hq : q ∈ nodeLinks g lt n) : ((n, q.1), q.2) ∈ g.linksOf lt := by
  unfold nodeLinks at hq
  rcases List.mem_filterMap.mp hq with ⟨e, he, heq⟩
  by_cases hc : e.1.1 = n
  · rw [if_pos hc] at heq
    have hq2 : q = (e.1.2, e.2) := (Option.some_inj.mp heq).symm
    rw [hq2, ← hc]
    exact he
  · rw [if_neg hc] at heq
    exact absurd heq (by simp)

theorem encAssert_of_AdjInv (g : Graph) (lt : LType) (h : AdjInv g) :
    encAssert g lt = true := by
  unfold encAssert
  rw [List.all_eq_true]
  intro p hp
  rw [List.all_eq_true]
  intro n hn
  rw [List.all_eq_true]
  intro q hq
  have hmem := nodeLinks_mem g lt n q hq
  cases lt
  · have := h.1 ((n, q.1), q.2) hmem
    simpa using this.symm
  · have := h.2 ((n, q.1), q.2) hmem
    simpa using this

/-! Reading edge statistics: lookups mirroring `src_node.succs[tgt].stats`. -/

/-- The stats of the link stored under a key, when present. -/
def linkStats? (l : List ((NKey × NKey) × Stats)) (key : NKey × NKey) : Option Stats :=
  (l.find? (fun e => e.1 = key)).map Prod.snd

/-- The stats of the successor link `src → tgt` (`src_node.succs[tgt].stats`). -/
def succStats? (g : Graph) (src tgt : NKey) : Option Stats :=
  linkStats? g.succs (src, tgt)

/-- The stats of the predecessor link stored at `src_node.preds[tgt]`. -/
def predStats? (g : Graph) (src tgt : NKey) : Option Stats :=
  linkStats? g.preds (src, tgt)

/-- The running sum a (possibly missing) stats accumulator holds for a role and
metric; a missing link or missing key reads as 0. -/
def statValOf : Option Stats → Role → String → ℚ
  | none, _, _ => 0
  | some s, role, m => lookupD (s.statsOf role) m

/-- The successor-direction running sum of edge `src → tgt`. -/
def succVal (g : Graph) (src tgt : NKey) (role : Role) (m : String) : ℚ :=
  statValOf (succStats? g src tgt) role m

/-- The predecessor-direction running sum stored at `src_node.preds[tgt]`. -/
def predVal (g : Graph) (src tgt : NKey) (role : Role) (m : String) : ℚ :=
  statValOf (predStats? g src tgt) role m

/-- The total numeric contribution of a resource dict to one metric key: the
sum of the convertible values stored under that key. -/
def contrib (res : List (String × Val)) (m : String) : ℚ :=
  ((res.filter (fun kv => kv.1 = m)).map (fun kv => (try_convert kv.2).getD 0)).sum

theorem linkStats?_nil (key : NKey × NKey) : linkStats? [] key = none := rfl

theorem linkStats?_cons (e : (NKey × NKey) × Stats) (l : List ((NKey × NKey) × Stats))
    (key : NKey × NKey) :
    linkStats? (e :: l) key = if e.1 = key then some e.2 else linkStats? l key := by
  unfold linkStats?
  by_cases h : e.1 = key
  · rw [List.find?_cons_of_pos _ (by simpa using h), if_pos h]
    rfl
  · rw [List.find?_cons_of_neg _ (by simpa using h), if_neg h]

theorem statValOf_empty (role : Role) (m : String) :
    statValOf (some Stats.empty) role m = statValOf none role m := by
  cases role <;> rfl

theorem statValOf_append_empty (l : List ((NKey × NKey) × Stats)) (key key2 : NKey × NKey)
    (role : Role) (m : String) :
    statValOf (linkStats? (l ++ [(key, Stats.empty)]) key2) role m
      = statValOf (linkStats? l key2) role m := by
  induction l with
  | nil =>
      rw [List.nil_append, linkStats?_cons, linkStats?_nil]
      split
      · exact statValOf_empty role m
      · rfl
  | cons e rest ih =>
      rw [List.cons_append, linkStats?_cons, linkStats?_cons]
      by_cases h : e.1 = key2
      · rw [if_pos h, if_pos h]
      · rw [if_neg h, if_neg h]
        exact ih

theorem linkStats?_isSome_iff (l : List ((NKey × NKey) × Stats)) (key : NKey × NKey) :
    (linkStats? l key).isSome = true ↔ key ∈ l.map Prod.fst := by
  induction l with
  | nil => simp [linkStats?_nil]
  | cons e rest ih =>
      rw [linkStats?_cons]
      by_cases h : e.1 = key
      · simp [h]
      · rw [if_neg h]
        simp only [List.map_cons, List.mem_cons, ih]
        constructor
        · exact Or.inr
        · rintro (hh | hh)
          · exact absurd hh.symm h
          · exact hh

theorem linkStats?_updateLink_self (l : List ((NKey × NKey) × Stats)) (key : NKey × NKey)
    (f : Stats → Stats) :
    linkStats? (updateLink l key f) key = (linkStats? l key).map f := by
  induction l with
  | nil => rfl
  | cons e rest ih =>
      obtain ⟨k, s⟩ := e
      unfold updateLink
      by_cases h : k = key
      · subst h
        rw [if_pos rfl, linkStats?_cons, linkStats?_cons]
        simp
      · have hne : (k, s).1 = key ↔ False := by simpa using h
        rw [if_neg (by simpa using h), linkStats?_cons, linkStats?_cons]
        simp only [hne, if_false, ih]

theorem linkStats?_updateLink_ne (l : List ((NKey × NKey) × Stats)) (key key2 : NKey × NKey)
    (f : Stats → Stats) (h : key2 ≠ key) :
    linkStats? (updateLink l key f) key2 = linkStats? l key2 := by
  induction l with
  | nil => rfl
  | cons e rest ih =>
      obtain ⟨k, s⟩ := e
      unfold updateLink
      by_cases hk : k = key
      · rw [if_pos hk, linkStats?_cons, linkStats?_cons]
        have hne : ¬(k = key2) := fun hh => h (hh ▸ hk)
        rw [if_neg (show ¬((k, f s).1 = key2) from hne),
          if_neg (show ¬((k, s).1 = key2) from hne)]
      · rw [if_neg hk, linkStats?_cons, linkStats?_cons, ih]

theorem add_stat_fst_val_self (s : Stats) (kn : List String) (role : Role) (m : String)
    (v : ℚ) :
    lookupD (((s.add_stat kn role m v).1).statsOf role) m = lookupD (s.statsOf role) m + v := by
  cases role <;> simp [Stats.add_stat, Stats.statsOf, lookupD_addToMap_self]

theorem add_stat_fst_val_ne (s : Stats) (kn : List String) (role : Role) (m m2 : String)
    (v : ℚ) (h : m2 ≠ m) :
    lookupD (((s.add_stat kn role m v).1).statsOf role) m2 = lookupD (s.statsOf role) m2 := by
  cases role <;> simp [Stats.add_stat, Stats.statsOf, lookupD_addToMap_ne _ _ _ _ h]

/-! Effect of the ensure phase (`get_succ_stats` / `get_pred_stats`) on the
stored values: creating a missing link with empty stats changes no sum. -/

theorem succStats?_get_pred_stats (g : Graph) (src tgt a b : NKey) :
    succStats? (g.get_pred_stats src tgt) a b = succStats? g a b := by
  unfold succStats?
  rw [get_pred_stats_succs]

theorem predStats?_get_succ_stats (g : Graph) (src tgt a b : NKey) :
    predStats? (g.get_succ_stats src tgt) a b = predStats? g a b := by
  unfold predStats?
  rw [get_succ_stats_preds]

theorem succVal_get_succ_stats (g : Graph) (src tgt a b : NKey) (role : Role) (m : String) :
    succVal (g.get_succ_stats src tgt) a b role m = succVal g a b role m := by
  unfold succVal succStats?
  rcases get_succ_stats_succs_sub g src tgt with he | he <;> rw [he]
  exact statValOf_append_empty _ _ _ _ _

theorem predVal_get_pred_stats (g : Graph) (src tgt a b : NKey) (role : Role) (m : String) :
    predVal (g.get_pred_stats src tgt) a b role m = predVal g a b role m := by
  unfold predVal predStats?
  rcases get_pred_stats_preds_sub g src tgt with he | he <;> rw [he]
  exact statValOf_append_empty _ _ _ _ _

theorem get_succ_stats_key_mem (g : Graph) (src tgt : NKey) :
    (src, tgt) ∈ (g.get_succ_stats src tgt).succs.map Prod.fst := by
  simp only [Graph.get_succ_stats]
  split
  · assumption
  · show (src, tgt)
        ∈ (((g.get_node src).get_node tgt).succs ++ [((src, tgt), Stats.empty)]).map Prod.fst
    simp

theorem get_pred_stats_key_mem (g : Graph) (src tgt : NKey) :
    (src, tgt) ∈ (g.get_pred_stats src tgt).preds.map Prod.fst := by
  simp only [Graph.get_pred_stats]
  split
  · assumption
  · show (src, tgt)
        ∈ (((g.get_node src).get_node tgt).preds ++ [((src, tgt), Stats.empty)]).map Prod.fst
    simp

theorem succStats?_ensure_isSome (g : Graph) (src tgt : NKey) :
    (succStats? ((g.get_succ_stats src tgt).get_pred_stats tgt src) src tgt).isSome = true := by
  rw [succStats?_get_pred_stats]
  unfold succStats?
  rw [linkStats?_isSome_iff]
  exact get_succ_stats_key_mem g src tgt

theorem predStats?_ensure_isSome (g : Graph) (src tgt : NKey) :
    (predStats? ((g.get_succ_stats src tgt).get_pred_stats tgt src) tgt src).isSome = true := by
  unfold predStats?
  rw [linkStats?_isSome_iff]
  exact get_pred_stats_key_mem (g.get_succ_stats src tgt) tgt src

/-! Effect of one `edge_step` on the two directional sums of its edge. -/

theorem contrib_nil (m : String) : contrib [] m = 0 := rfl

theorem contrib_cons (kv : String × Val) (rest : List (String × Val)) (m : String) :
    contrib (kv :: rest) m
      = (if kv.1 = m then (try_convert kv.2).getD 0 else 0) + contrib rest m := by
  unfold contrib
  by_cases h : kv.1 = m <;> simp [List.filter_cons, h]

theorem edge_step_succs (src tgt : NKey) (pt : Role) (acc : GState) (kv : String × Val) :
    (edge_step src tgt pt acc kv).graph.succs
      = match try_convert kv.2 with
        | none => acc.graph.succs
        | some amount => updateLink acc.graph.succs (src, tgt)
            (fun s => (s.add_stat acc.known pt kv.1 amount).1) := by
  unfold edge_step
  cases try_convert kv.2 <;> rfl

theorem edge_step_preds (src tgt : NKey) (pt : Role) (acc : GState) (kv : String × Val) :
    (edge_step src tgt pt acc kv).graph.preds
      = match try_convert kv.2 with
        | none => acc.graph.preds
        | some amount => updateLink acc.graph.preds (tgt, src)
            (fun s => (s.add_stat (addKnown acc.known kv.1) pt kv.1 amount).1) := by
  unfold edge_step
  cases try_convert kv.2 <;> rfl

theorem edge_step_known (src tgt : NKey) (pt : Role) (acc : GState) (kv : String × Val) :
    (edge_step src tgt pt acc kv).known
      = if (try_convert kv.2).isSome = true then addKnown acc.known kv.1 else acc.known := by
  unfold edge_step
  cases try_convert kv.2 <;> simp

theorem statValOf_map_add (os : Option Stats) (kn : List String) (pt : Role) (key m : String)
    (v : ℚ) (hsome : os.isSome = true) :
    statValOf (os.map (fun s => (s.add_stat kn pt key v).1)) pt m
      = statValOf os pt m + (if key = m then v else 0) := by
  rcases Option.isSome_iff_exists.mp hsome with ⟨s0, rfl⟩
  show lookupD (((s0.add_stat kn pt key v).1).statsOf pt) m = lookupD (s0.statsOf pt) m + _
  by_cases h : key = m
  · rw [if_pos h, ← h]
    exact add_stat_fst_val_self s0 kn pt key v
  · rw [if_neg h, add_stat_fst_val_ne s0 kn pt key m v (fun hh => h hh.symm)]
    ring

theorem edge_step_succVal (src tgt : NKey) (pt : Role) (acc : GState) (kv : String × Val)
    (m : String) (hsome : (succStats? acc.graph src tgt).isSome = true) :
    succVal (edge_step src tgt pt acc kv).graph src tgt pt m
      = succVal acc.graph src tgt pt m
        + (if kv.1 = m then (try_convert kv.2).getD 0 else 0) := by
  unfold succVal succStats?
  rw [edge_step_succs]
  cases htc : try_convert kv.2 with
  | none => simp
  | some v =>
      rw [linkStats?_updateLink_self]
      have := statValOf_map_add (linkStats? acc.graph.succs (src, tgt)) acc.known pt kv.1 m v
        hsome
      rw [this]
      simp [htc]

theorem edge_step_predVal (src tgt : NKey) (pt : Role) (acc : GState) (kv : String × Val)
    (m : String) (hsome : (predStats? acc.graph tgt src).isSome = true) :
    predVal (edge_step src tgt pt acc kv).graph tgt src pt m
      = predVal acc.graph tgt src pt m
        + (if kv.1 = m then (try_convert kv.2).getD 0 else 0) := by
  unfold predVal predStats?
  rw [edge_step_preds]
  cases htc : try_convert kv.2 with
  | none => simp
  | some v =>
      rw [linkStats?_updateLink_self]
      have := statValOf_map_add (linkStats? acc.graph.preds (tgt, src))
        (addKnown acc.known kv.1) pt kv.1 m v hsome
      rw [this]
      simp [htc]

theorem edge_step_succ_isSome (src tgt : NKey) (pt : Role) (acc : GState) (kv : String × Val)
    (hsome : (succStats? acc.graph src tgt).isSome = true) :
    (succStats? (edge_step src tgt pt acc kv).graph src tgt).isSome = true := by
  unfold succStats?
  rw [edge_step_succs]
  cases try_convert kv.2 with
  | none => exact hsome
  | some v =>
      rw [linkStats?_updateLink_self]
      simpa using hsome

theorem edge_step_pred_isSome (src tgt : NKey) (pt : Role) (acc : GState) (kv : String × Val)
    (hsome : (predStats? acc.graph tgt src).isSome = true) :
    (predStats? (edge_step src tgt pt acc kv).graph tgt src).isSome = true := by
  unfold predStats?
  rw [edge_step_preds]
  cases try_convert kv.2 with
  | none => exact hsome
  | some v =>
      rw [linkStats?_updateLink_self]
      simpa using hsome

theorem succVal_get_pred_stats (g : Graph) (src tgt a b : NKey) (role : Role) (m : String) :
    succVal (g.get_pred_stats src tgt) a b role m = succVal g a b role m := by
  unfold succVal
  rw [succStats?_get_pred_stats]

theorem predVal_get_succ_stats (g : Graph) (src tgt a b : NKey) (role : Role) (m : String) :
    predVal (g.get_succ_stats src tgt) a b role m = predVal g a b role m := by
  unfold predVal
  rw [predStats?_get_succ_stats]

theorem foldl_edge_step_succVal (src tgt : NKey) (pt : Role) (m : String) :
    ∀ (res : List (String × Val)) (s : GState),
      (succStats? s.graph src tgt).isSome = true →
      succVal (res.foldl (edge_step src tgt pt) s).graph src tgt pt m
        = succVal s.graph src tgt pt m + contrib res m := by
  intro res
  induction res with
  | nil =>
      intro s _
      rw [List.foldl_nil, contrib_nil, add_zero]
  | cons kv rest ih =>
      intro s hs
      rw [List.foldl_cons, ih _ (edge_step_succ_isSome src tgt pt s kv hs),
        edge_step_succVal src tgt pt s kv m hs, contrib_cons]
      ring

theorem foldl_edge_step_predVal (src tgt : NKey) (pt : Role) (m : String) :
    ∀ (res : List (String × Val)) (s : GState),
      (predStats? s.graph tgt src).isSome = true →
      predVal (res.foldl (edge_step src tgt pt) s).graph tgt src pt m
        = predVal s.graph tgt src pt m + contrib res m := by
  intro res
  induction res with
  | nil =>
      intro s _
      rw [List.foldl_nil, contrib_nil, add_zero]
  | cons kv rest ih =>
      intro s hs
      rw [List.foldl_cons, ih _ (edge_step_pred_isSome src tgt pt s kv hs),
        edge_step_predVal src tgt pt s kv m hs, contrib_cons]
      ring

theorem foldl_edge_step_known (src tgt : NKey) (pt : Role) :
    ∀ (res : List (String × Val)) (s : GState) (k : String),
      (k ∈ (res.foldl (edge_step src tgt pt) s).known
        ↔ k ∈ s.known ∨ ∃ v, (k, v) ∈ res ∧ (try_convert v).isSome = true) := by
  intro res
  induction res with
  | nil =>
      intro s k
      simp
  | cons kv rest ih =>
      intro s k
      rw [List.foldl_cons, ih, edge_step_known]
      by_cases hc : (try_convert kv.2).isSome = true
      · rw [if_pos hc, mem_addKnown]
        constructor
        · rintro ((h | h) | ⟨v, hv, hv2⟩)
          · exact Or.inl h
          · refine Or.inr ⟨kv.2, ?_, hc⟩
            rw [h]
            exact List.mem_cons_self _ _
          · exact Or.inr ⟨v, List.mem_cons_of_mem _ hv, hv2⟩
        · rintro (h | ⟨v, hv, hv2⟩)
          · exact Or.inl (Or.inl h)
          · rcases List.mem_cons.mp hv with he | hr
            · exact Or.inl (Or.inr (congrArg Prod.fst he))
            · exact Or.inr ⟨v, hr, hv2⟩
      · rw [if_neg hc]
        constructor
        · rintro (h | ⟨v, hv, hv2⟩)
          · exact Or.inl h
          · exact Or.inr ⟨v, List.mem_cons_of_mem _ hv, hv2⟩
        · rintro (h | ⟨v, hv, hv2⟩)
          · exact Or.inl h
          · rcases List.mem_cons.mp hv with he | hr
            · exact absurd ((congrArg Prod.snd he) ▸ hv2) hc
            · exact Or.inr ⟨v, hr, hv2⟩

/-! Effect of a whole `process_edge` call. -/

theorem process_edge_succVal (st : GState) (pt : Role) (res : List (String × Val))
    (src tgt : NKey) (m : String) :
    succVal (process_edge st pt res src tgt).graph src tgt pt m
      = succVal st.graph src tgt pt m + contrib res m := by
  rw [process_edge_eq]
  have hs : (succStats? (GState.graph
      ⟨(st.graph.get_succ_stats src tgt).get_pred_stats tgt src, st.known⟩) src tgt).isSome
      = true := by
    rw [GState_graph_mk]
    exact succStats?_ensure_isSome st.graph src tgt
  rw [foldl_edge_step_succVal src tgt pt m res _ hs, GState_graph_mk,
    succVal_get_pred_stats, succVal_get_succ_stats]

theorem process_edge_predVal (st : GState) (pt : Role) (res : List (String × Val))
    (src tgt : NKey) (m : String) :
    predVal (process_edge st pt res src tgt).graph tgt src pt m
      = predVal st.graph tgt src pt m + contrib res m := by
  rw [process_edge_eq]
  have hs : (predStats? (GState.graph
      ⟨(st.graph.get_succ_stats src tgt).get_pred_stats tgt src, st.known⟩) tgt src).isSome
      = true := by
    rw [GState_graph_mk]
    exact predStats?_ensure_isSome st.graph src tgt
  rw [foldl_edge_step_predVal src tgt pt m res _ hs, GState_graph_mk,
    predVal_get_pred_stats, predVal_get_succ_stats]

theorem process_edge_known_mem (st : GState) (pt : Role) (res : List (String × Val))
    (src tgt : NKey) (k : String) :
    k ∈ (process_edge st pt res src tgt).known
      ↔ k ∈ st.known ∨ ∃ v, (k, v) ∈ res ∧ (try_convert v).isSome = true := by
  rw [process_edge_eq, foldl_edge_step_known src tgt pt res _ k, GState_known_mk]

/-! The registry stays duplicate-free through all processing. -/

theorem known_nodup_edge_step (src tgt : NKey) (pt : Role) (acc : GState) (kv : String × Val)
    (h : acc.known.Nodup) : (edge_step src tgt pt acc kv).known.Nodup := by
  rw [edge_step_known]
  split
  · exact addKnown_nodup _ _ h
  · exact h

theorem known_nodup_process_edge (st : GState) (pt : Role) (res : List (String × Val))
    (src tgt : NKey) (h : st.known.Nodup) : (process_edge st pt res src tgt).known.Nodup := by
  rw [process_edge_eq]
  refine foldl_inv (fun s : GState => s.known.Nodup) (edge_step src tgt pt) ?_ res _ ?_
  · intro s kv hs
    exact known_nodup_edge_step _ _ _ _ _ hs
  · show (GState.known ⟨(st.graph.get_succ_stats src tgt).get_pred_stats tgt src, st.known⟩).Nodup
    rw [GState_known_mk]
    exact h

theorem known_nodup_process_record (incl : Bool) (st : GState) (pt : Role) (r : Resource)
    (h : st.known.Nodup) : (process_record incl st pt r).known.Nodup := by
  simp only [process_record]
  by_cases hn : 1 < (fullTrace r).length
  · simp only [if_pos hn]
    cases incl
    · simp only [Bool.false_eq_true, if_false]
      exact known_nodup_process_edge _ _ _ _ _ h
    · simp only [if_true]
      refine foldl_inv (fun s : GState => s.known.Nodup) _ ?_ (List.range _) _ h
      intro s i hs
      exact known_nodup_process_edge _ _ _ _ _ hs
  · simp only [if_neg hn]
    exact h

theorem known_nodup_process_traces (incl : Bool) (st : GState) (pt : Role)
    (rs : List Resource) (h : st.known.Nodup) : (process_traces incl st pt rs).known.Nodup := by
  unfold process_traces
  apply foldl_inv (fun s : GState => s.known.Nodup) _
    (fun s r hs => known_nodup_process_record _ _ _ _ hs)
  exact h

theorem known_nodup_runProfiles (incl : Bool) (known : List String) (lhs rhs : Profile)
    (h : known.Nodup) : (runProfiles incl known lhs rhs).known.Nodup :=
  known_nodup_process_traces _ _ _ _ (known_nodup_process_traces _ _ _ _ h)

/-! The mirror invariant: the predecessor table is the successor table with
every key reversed, entrywise (reciprocal links are created and updated in
tandem by `process_edge`). -/

/-- Key reversal of one link entry. -/
def swapE (e : (NKey × NKey) × Stats) : (NKey × NKey) × Stats := ((e.1.2, e.1.1), e.2)

/-- Mirror shape of the two link tables. -/
def MirrorInv (g : Graph) : Prop := g.preds = g.succs.map swapE

theorem MirrorInv_empty : MirrorInv Graph.empty := rfl

theorem MirrorInv_fields (g g2 : Graph) (hs : g2.succs = g.succs) (hp : g2.preds = g.preds)
    (h : MirrorInv g) : MirrorInv g2 := by
  unfold MirrorInv at h ⊢
  rw [hs, hp]
  exact h

theorem MirrorInv_get_node (g : Graph) (n : NKey) (h : MirrorInv g) :
    MirrorInv (g.get_node n) :=
  MirrorInv_fields _ _ (get_node_succs g n) (get_node_preds g n) h

theorem MirrorInv_mem_iff (g : Graph) (src tgt : NKey) (h : MirrorInv g) :
    ((tgt, src) ∈ g.preds.map Prod.fst ↔ (src, tgt) ∈ g.succs.map Prod.fst) := by
  rw [h, List.map_map]
  constructor
  · intro hm
    rcases List.mem_map.mp hm with ⟨e, he, heq⟩
    refine List.mem_map.mpr ⟨e, he, ?_⟩
    have h1 : e.1.2 = tgt := congrArg Prod.fst heq
    have h2 : e.1.1 = src := congrArg Prod.snd heq
    show e.1 = (src, tgt)
    rw [Prod.ext_iff]
    exact ⟨h2, h1⟩
  · intro hm
    rcases List.mem_map.mp hm with ⟨e, he, heq⟩
    refine List.mem_map.mpr ⟨e, he, ?_⟩
    have h1 : e.1.1 = src := congrArg Prod.fst heq
    have h2 : e.1.2 = tgt := congrArg Prod.snd heq
    show (e.1.2, e.1.1) = (tgt, src)
    rw [Prod.ext_iff]
    exact ⟨h2, h1⟩

theorem get_succ_stats_eq_of_mem (g : Graph) (src tgt : NKey)
    (hc : (src, tgt) ∈ g.succs.map Prod.fst) :
    g.get_succ_stats src tgt = g.get_node src := by
  simp only [Graph.get_succ_stats, get_node_succs]
  rw [if_pos hc]

theorem get_succ_stats_eq_of_not_mem (g : Graph) (src tgt : NKey)
    (hc : (src, tgt) ∉ g.succs.map Prod.fst) :
    g.get_succ_stats src tgt
      = ⟨((g.get_node src).get_node tgt).nodes, ((g.get_node src).get_node tgt).uid_to_nodes,
          ((g.get_node src).get_node tgt).uid_to_id,
          ((g.get_node src).get_node tgt).stats_to_id,
          ((g.get_node src).get_node tgt).succs ++ [((src, tgt), Stats.empty)],
          ((g.get_node src).get_node tgt).preds⟩ := by
  simp only [Graph.get_succ_stats, get_node_succs]
  rw [if_neg hc]

theorem get_pred_stats_eq_of_mem (g : Graph) (src tgt : NKey)
    (hc : (src, tgt) ∈ g.preds.map Prod.fst) :
    g.get_pred_stats src tgt = g.get_node src := by
  simp only [Graph.get_pred_stats, get_node_preds]
  rw [if_pos hc]

theorem get_pred_stats_eq_of_not_mem (g : Graph) (src tgt : NKey)
    (hc : (src, tgt) ∉ g.preds.map Prod.fst) :
    g.get_pred_stats src tgt
      = ⟨((g.get_node src).get_node tgt).nodes, ((g.get_node src).get_node tgt).uid_to_nodes,
          ((g.get_node src).get_node tgt).uid_to_id,
          ((g.get_node src).get_node tgt).stats_to_id,
          ((g.get_node src).get_node tgt).succs,
          ((g.get_node src).get_node tgt).preds ++ [((src, tgt), Stats.empty)]⟩ := by
  simp only [Graph.get_pred_stats, get_node_preds]
  rw [if_neg hc]

theorem ensure_succs_of_mem (g : Graph) (src tgt : NKey)
    (hc : (src, tgt) ∈ g.succs.map Prod.fst) :
    ((g.get_succ_stats src tgt).get_pred_stats tgt src).succs = g.succs := by
  rw [get_pred_stats_succs, get_succ_stats_eq_of_mem g src tgt hc, get_node_succs]

theorem ensure_succs_of_not_mem (g : Graph) (src tgt : NKey)
    (hc : (src, tgt) ∉ g.succs.map Prod.fst) :
    ((g.get_succ_stats src tgt).get_pred_stats tgt src).succs
      = g.succs ++ [((src, tgt), Stats.empty)] := by
  rw [get_pred_stats_succs, get_succ_stats_eq_of_not_mem g src tgt hc]
  show ((g.get_node src).get_node tgt).succs ++ [((src, tgt), Stats.empty)]
      = g.succs ++ [((src, tgt), Stats.empty)]
  rw [get_node_succs, get_node_succs]

theorem ensure_preds_of_mem (g : Graph) (src tgt : NKey)
    (hc : (tgt, src) ∈ g.preds.map Prod.fst) :
    ((g.get_succ_stats src tgt).get_pred_stats tgt src).preds = g.preds := by
  have hc2 : (tgt, src) ∈ (g.get_succ_stats src tgt).preds.map Prod.fst := by
    rw [get_succ_stats_preds]
    exact hc
  rw [get_pred_stats_eq_of_mem _ tgt src hc2, get_node_preds, get_succ_stats_preds]

theorem ensure_preds_of_not_mem (g : Graph) (src tgt : NKey)
    (hc : (tgt, src) ∉ g.preds.map Prod.fst) :
    ((g.get_succ_stats src tgt).get_pred_stats tgt src).preds
      = g.preds ++ [((tgt, src), Stats.empty)] := by
  have hc2 : (tgt, src) ∉ (g.get_succ_stats src tgt).preds.map Prod.fst := by
    rw [get_succ_stats_preds]
    exact hc
  rw [get_pred_stats_eq_of_not_mem _ tgt src hc2]
  show (((g.get_succ_stats src tgt).get_node tgt).get_node src).preds
        ++ [((tgt, src), Stats.empty)]
      = g.preds ++ [((tgt, src), Stats.empty)]
  rw [get_node_preds, get_node_preds, get_succ_stats_preds]

theorem MirrorInv_ensure (g : Graph) (src tgt : NKey) (h : MirrorInv g) :
    MirrorInv ((g.get_succ_stats src tgt).get_pred_stats tgt src) := by
  unfold MirrorInv
  by_cases hc : (src, tgt) ∈ g.succs.map Prod.fst
  · rw [ensure_succs_of_mem g src tgt hc,
      ensure_preds_of_mem g src tgt ((MirrorInv_mem_iff g src tgt h).mpr hc)]
    exact h
  · rw [ensure_succs_of_not_mem g src tgt hc,
      ensure_preds_of_not_mem g src tgt
        (fun hm => hc ((MirrorInv_mem_iff g src tgt h).mp hm)),
      List.map_append, ← h]
    rfl

theorem updateLink_map_swapE (l : List ((NKey × NKey) × Stats)) (key : NKey × NKey)
    (f : Stats → Stats) :
    updateLink (l.map swapE) (key.2, key.1) f = (updateLink l key f).map swapE := by
  induction l with
  | nil => rfl
  | cons e rest ih =>
      obtain ⟨⟨a, b⟩, s⟩ := e
      rw [List.map_cons]
      show updateLink (((b, a), s) :: rest.map swapE) (key.2, key.1) f = _
      unfold updateLink
      by_cases h : (a, b) = key
      · have h2 : ((b, a) : NKey × NKey) = (key.2, key.1) := by
          have ha : a = key.1 := congrArg Prod.fst h
          have hb : b = key.2 := congrArg Prod.snd h
          rw [ha, hb]
        rw [if_pos h2, if_pos h, List.map_cons]
        rfl
      · have h2 : ¬(((b, a) : NKey × NKey) = (key.2, key.1)) := by
          intro hh
          apply h
          have hb : b = key.2 := congrArg Prod.fst hh
          have ha : a = key.1 := congrArg Prod.snd hh
          rw [Prod.ext_iff]
          exact ⟨ha, hb⟩
        rw [if_neg h2, if_neg h, List.map_cons, ih]
        rfl

theorem MirrorInv_edge_step (src tgt : NKey) (pt : Role) (acc : GState) (kv : String × Val)
    (h : MirrorInv acc.graph) : MirrorInv (edge_step src tgt pt acc kv).graph := by
  unfold MirrorInv
  rw [edge_step_preds, edge_step_succs]
  cases try_convert kv.2 with
  | none => exact h
  | some v =>
      show updateLink acc.graph.preds (tgt, src)
          (fun s => (s.add_stat (addKnown acc.known kv.1) pt kv.1 v).1)
        = (updateLink acc.graph.succs (src, tgt)
            (fun s => (s.add_stat acc.known pt kv.1 v).1)).map swapE
      rw [h]
      exact updateLink_map_swapE acc.graph.succs (src, tgt)
        (fun s => (s.add_stat acc.known pt kv.1 v).1)

theorem MirrorInv_process_edge (st : GState) (pt : Role) (res : List (String × Val))
    (src tgt : NKey) (h : MirrorInv st.graph) :
    MirrorInv (process_edge st pt res src tgt).graph := by
  rw [process_edge_eq]
  refine foldl_inv (fun s : GState => MirrorInv s.graph) (edge_step src tgt pt) ?_ res _ ?_
  · intro s kv hs
    exact MirrorInv_edge_step _ _ _ _ _ hs
  · show MirrorInv (GState.graph
      ⟨(st.graph.get_succ_stats src tgt).get_pred_stats tgt src, st.known⟩)
    rw [GState_graph_mk]
    exact MirrorInv_ensure st.graph src tgt h

theorem find?_swapE (l : List ((NKey × NKey) × Stats)) (src tgt : NKey) :
    ((l.map swapE).find? (fun e => e.1 = (tgt, src))).map Prod.snd
      = (l.find? (fun e => e.1 = (src, tgt))).map Prod.snd := by
  induction l with
  | nil => rfl
  | cons e rest ih =>
      obtain ⟨⟨a, b⟩, s⟩ := e
      rw [List.map_cons]
      show ((((b, a), s) :: rest.map swapE).find? (fun e => e.1 = (tgt, src))).map Prod.snd = _
      by_cases h : ((a, b) : NKey × NKey) = (src, tgt)
      · have h2 : ((b, a) : NKey × NKey) = (tgt, src) := by
          have ha : a = src := congrArg Prod.fst h
          have hb : b = tgt := congrArg Prod.snd h
          rw [ha, hb]
        rw [List.find?_cons_of_pos _ (by simpa using h2),
          List.find?_cons_of_pos _ (by simpa using h)]
        rfl
      · have h2 : ¬(((b, a) : NKey × NKey) = (tgt, src)) := by
          intro hh
          apply h
          have hb : b = tgt := congrArg Prod.fst hh
          have ha : a = src := congrArg Prod.snd hh
          rw [Prod.ext_iff]
          exact ⟨ha, hb⟩
        rw [List.find?_cons_of_neg _ (by simpa using h2),
          List.find?_cons_of_neg _ (by simpa using h)]
        exact ih

/-- Under the mirror invariant the reciprocal predecessor link holds exactly
the successor link's stats. -/
theorem mirror_stats (g : Graph) (src tgt : NKey) (h : MirrorInv g) :
    predStats? g tgt src = succStats? g src tgt := by
  unfold predStats? succStats? linkStats?
  rw [h]
  exact find?_swapE g.succs src tgt

theorem MirrorInv_applyEdgeCalls_step (s : GState) (pt : Role) (res : List (String × Val))
    (a b : NKey) (hs : MirrorInv s.graph) : MirrorInv (process_edge s pt res a b).graph :=
  MirrorInv_process_edge s pt res a b hs

/-- One edge accumulation: the argument tuple of a `process_edge` call. -/
structure EdgeCall where
  role : Role
  resource : List (String × Val)
  src : NKey
  tgt : NKey

/-- A sequence of `process_edge` calls applied in order. -/
def applyEdgeCalls (st : GState) (calls : List EdgeCall) : GState :=
  calls.foldl (fun s c => process_edge s c.role c.resource c.src c.tgt) st

theorem applyEdgeCalls_cons (st : GState) (c : EdgeCall) (calls : List EdgeCall) :
    applyEdgeCalls st (c :: calls)
      = applyEdgeCalls (process_edge st c.role c.resource c.src c.tgt) calls := rfl

theorem MirrorInv_applyEdgeCalls (st : GState) (calls : List EdgeCall)
    (h : MirrorInv st.graph) : MirrorInv (applyEdgeCalls st calls).graph := by
  unfold applyEdgeCalls
  apply foldl_inv (fun s : GState => MirrorInv s.graph) _
    (fun s c hs => MirrorInv_process_edge _ _ _ _ _ hs)
  exact h

theorem contrib_single (m : String) (v : ℚ) : contrib [(m, Val.vnum v)] m = v := by
  simp [contrib, try_convert]

theorem replicate_edge_succVal (role : Role) (m : String) (v : ℚ) (src tgt : NKey) :
    ∀ (k : ℕ) (st : GState),
      succVal (applyEdgeCalls st
          (List.replicate k ⟨role, [(m, Val.vnum v)], src, tgt⟩)).graph src tgt role m
        = succVal st.graph src tgt role m + k * v := by
  intro k
  induction k with
  | zero =>
      intro st
      show succVal st.graph src tgt role m = succVal st.graph src tgt role m + (0 : ℕ) * v
      push_cast
      ring
  | succ n ih =>
      intro st
      rw [List.replicate_succ, applyEdgeCalls_cons, ih, process_edge_succVal, contrib_single]
      push_cast
      ring

theorem replicate_edge_predVal (role : Role) (m : String) (v : ℚ) (src tgt : NKey) :
    ∀ (k : ℕ) (st : GState),
      predVal (applyEdgeCalls st
          (List.replicate k ⟨role, [(m, Val.vnum v)], src, tgt⟩)).graph tgt src role m
        = predVal st.graph tgt src role m + k * v := by
  intro k
  induction k with
  | zero =>
      intro st
      show predVal st.graph tgt src role m = predVal st.graph tgt src role m + (0 : ℕ) * v
      push_cast
      ring
  | succ n ih =>
      intro st
      rw [List.replicate_succ, applyEdgeCalls_cons, ih, process_edge_predVal, contrib_single]
      push_cast
      ring

/-! First-seen id assignment of `get_node` (compact-id bookkeeping). -/

theorem get_node_of_not_mem_mem (g : Graph) (k : NKey)
    (h1 : k.uid ∉ g.uid_to_id.map Prod.fst) (h2 : k ∈ g.nodes) :
    g.get_node k
      = ⟨g.nodes, g.uid_to_nodes, g.uid_to_id ++ [(k.uid, g.uid_to_id.length)],
          g.stats_to_id, g.succs, g.preds⟩ := by
  simp [Graph.get_node, h1, h2]

theorem get_node_keys (g : Graph) (k : NKey) :
    (g.get_node k).uid_to_id.map Prod.fst = addKnown (g.uid_to_id.map Prod.fst) k.uid := by
  by_cases hu : k.uid ∈ g.uid_to_id.map Prod.fst
  · unfold addKnown
    rw [if_pos hu]
    by_cases hn : k ∈ g.nodes
    · rw [get_node_of_mem_mem g k hu hn]
    · rw [get_node_of_mem_not_mem g k hu hn]
  · unfold addKnown
    rw [if_neg hu]
    by_cases hn : k ∈ g.nodes
    · rw [get_node_of_not_mem_mem g k hu hn]
      simp
    · rw [get_node_of_not_mem g k hu hn]
      simp

theorem foldl_get_node_keys (ks : List NKey) :
    ∀ g : Graph, (ks.foldl Graph.get_node g).uid_to_id.map Prod.fst
      = (ks.map NKey.uid).foldl addKnown (g.uid_to_id.map Prod.fst) := by
  induction ks with
  | nil => intro g; rfl
  | cons k rest ih =>
      intro g
      rw [List.foldl_cons, List.map_cons, List.foldl_cons, ih, get_node_keys]

theorem get_node_uid_to_id_extends (g : Graph) (k : NKey) :
    ∃ t, (g.get_node k).uid_to_id = g.uid_to_id ++ t := by
  by_cases hu : k.uid ∈ g.uid_to_id.map Prod.fst
  · by_cases hn : k ∈ g.nodes
    · exact ⟨[], by rw [get_node_of_mem_mem g k hu hn, List.append_nil]⟩
    · exact ⟨[], by rw [get_node_of_mem_not_mem g k hu hn, List.append_nil]⟩
  · by_cases hn : k ∈ g.nodes
    · exact ⟨[(k.uid, g.uid_to_id.length)], by rw [get_node_of_not_mem_mem g k hu hn]⟩
    · exact ⟨[(k.uid, g.uid_to_id.length)], by rw [get_node_of_not_mem g k hu hn]⟩

theorem get_node_mem_after (g : Graph) (k : NKey) :
    k.uid ∈ (g.get_node k).uid_to_id.map Prod.fst ∧ k ∈ (g.get_node k).nodes := by
  constructor
  · rw [get_node_keys, mem_addKnown]
    exact Or.inr rfl
  · by_cases hu : k.uid ∈ g.uid_to_id.map Prod.fst
    · by_cases hn : k ∈ g.nodes
      · rw [get_node_of_mem_mem g k hu hn]
        exact hn
      · rw [get_node_of_mem_not_mem g k hu hn]
        simp
    · by_cases hn : k ∈ g.nodes
      · rw [get_node_of_not_mem_mem g k hu hn]
        exact hn
      · rw [get_node_of_not_mem g k hu hn]
        simp

theorem get_node_idem (g : Graph) (k : NKey) : (g.get_node k).get_node k = g.get_node k := by
  obtain ⟨h1, h2⟩ := get_node_mem_after g k
  exact get_node_of_mem_mem _ _ h1 h2

/-! Compact-id lookup and encoder ordering lemmas. -/

theorem lookupIdx_isSome_iff {α : Type} [DecidableEq α] (t : List (α × ℕ)) (x : α) :
    (lookupIdx t x).isSome = true ↔ x ∈ t.map Prod.fst := by
  induction t with
  | nil => simp [lookupIdx]
  | cons e rest ih =>
      unfold lookupIdx
      by_cases h : e.1 = x
      · rw [List.find?_cons_of_pos _ (by simpa using h)]
        simp [h]
      · rw [List.find?_cons_of_neg _ (by simpa using h)]
        unfold lookupIdx at ih
        rw [List.map_cons]
        simp only [List.mem_cons, ih]
        constructor
        · exact Or.inr
        · rintro (hh | hh)
          · exact absurd hh.symm h
          · exact hh

theorem lookupIdx_of_mem_nodup {α : Type} [DecidableEq α] (t : List (α × ℕ))
    (hnd : (t.map Prod.fst).Nodup) (e : α × ℕ) (he : e ∈ t) : lookupIdx t e.1 = some e.2 := by
  induction t with
  | nil => simp at he
  | cons p rest ih =>
      unfold lookupIdx
      by_cases h : p.1 = e.1
      · rw [List.find?_cons_of_pos _ (by simpa using h)]
        rcases List.mem_cons.mp he with rfl | hr
        · rfl
        · exfalso
          have : e.1 ∈ rest.map Prod.fst := List.mem_map.mpr ⟨e, hr, rfl⟩
          rw [← h] at this
          exact (List.nodup_cons.mp (by simpa using hnd)).1 this
      · rw [List.find?_cons_of_neg _ (by simpa using h)]
        rcases List.mem_cons.mp he with rfl | hr
        · exact absurd rfl h
        · exact ih (List.nodup_cons.mp (by simpa using hnd)).2 hr

theorem translate_map (g : Graph) (h : GInv g) :
    g.uid_to_nodes.map (fun p => g.translate_node p.1)
      = List.range g.uid_to_id.length := by
  obtain ⟨h1, h2, h3, _, _, _⟩ := h
  have step1 : g.uid_to_nodes.map (fun p => g.translate_node p.1)
      = (g.uid_to_nodes.map Prod.fst).map (fun u => g.translate_node u) := by
    rw [List.map_map]
    rfl
  rw [step1, h3, ← h1]
  have step2 : (g.uid_to_id.map Prod.fst).map (fun u => g.translate_node u)
      = g.uid_to_id.map (fun e => g.translate_node e.1) := by
    rw [List.map_map]
    rfl
  rw [step2]
  apply List.map_congr_left
  intro e he
  unfold Graph.translate_node
  rw [lookupIdx_of_mem_nodup g.uid_to_id h2 e he]
  rfl

theorem encSkeleton_ids (g : Graph) (h : GInv g) :
    (encSkeleton g).map Prod.fst = List.range g.uid_to_id.length := by
  unfold encSkeleton
  rw [List.map_map]
  exact translate_map g h

/-! The interned-stats table: key order is first-emission order, ids are list
positions. -/

theorem translate_stats_fst (tab : List (String × ℕ)) (k : String) :
    (translate_stats tab k).1.map Prod.fst = addKnown (tab.map Prod.fst) k := by
  unfold translate_stats addKnown
  cases hc : lookupIdx tab k with
  | some i =>
      rw [if_pos ((lookupIdx_isSome_iff tab k).mp (by rw [hc]; rfl))]
  | none =>
      have hmem : k ∉ tab.map Prod.fst := by
        intro hm
        have := (lookupIdx_isSome_iff tab k).mpr hm
        rw [hc] at this
        exact absurd this (by simp)
      rw [if_neg hmem]
      simp

theorem translate_stats_snd (tab : List (String × ℕ)) (k : String)
    (h : tab.map Prod.snd = List.range tab.length) :
    (translate_stats tab k).1.map Prod.snd = List.range (translate_stats tab k).1.length := by
  unfold translate_stats
  cases lookupIdx tab k with
  | some i => exact h
  | none =>
      show (tab ++ [(k, tab.length)]).map Prod.snd
          = List.range ((tab ++ [(k, tab.length)]).length)
      rw [List.map_append, h, List.length_append]
      simp [List.range_succ]

theorem encTable_fst (ord : List String) (g : Graph) (lt : LType) :
    ∀ tab : List (String × ℕ),
      (encTable ord g lt tab).map Prod.fst
        = (emittedKeys ord g lt).foldl addKnown (tab.map Prod.fst) := by
  unfold encTable
  generalize emittedKeys ord g lt = keys
  induction keys with
  | nil => intro tab; rfl
  | cons k rest ih =>
      intro tab
      rw [List.foldl_cons, List.foldl_cons, ih, translate_stats_fst]

theorem encTable_snd (ord : List String) (g : Graph) (lt : LType) :
    ∀ tab : List (String × ℕ),
      tab.map Prod.snd = List.range tab.length →
      (encTable ord g lt tab).map Prod.snd = List.range (encTable ord g lt tab).length := by
  unfold encTable
  generalize emittedKeys ord g lt = keys
  induction keys with
  | nil => intro tab h; exact h
  | cons k rest ih =>
      intro tab h
      rw [List.foldl_cons]
      exact ih _ (translate_stats_snd tab k h)

/-! The embedding of Python's stable `sorted`. -/

theorem insertBy_mem {α : Type} (key : α → ℕ) (a : α) (l : List α) (x : α) :
    x ∈ insertBy key a l ↔ x = a ∨ x ∈ l := by
  induction l with
  | nil => simp [insertBy]
  | cons b bs ih =>
      unfold insertBy
      split
      · simp [or_comm, or_assoc, or_left_comm]
      · simp only [List.mem_cons, ih]
        constructor
        · rintro (h | h | h)
          · exact Or.inr (Or.inl h)
          · exact Or.inl h
          · exact Or.inr (Or.inr h)
        · rintro (h | h | h)
          · exact Or.inr (Or.inl h)
          · exact Or.inl h
          · exact Or.inr (Or.inr h)

theorem insertBy_sorted {α : Type} (key : α → ℕ) (a : α) (l : List α)
    (h : List.Pairwise (fun x y => key x ≤ key y) l) :
    List.Pairwise (fun x y => key x ≤ key y) (insertBy key a l) := by
  induction l with
  | nil => simp [insertBy]
  | cons b bs ih =>
      unfold insertBy
      split
      · rename_i hle
        rw [List.pairwise_cons]
        refine ⟨?_, h⟩
        intro x hx
        rcases List.mem_cons.mp hx with rfl | hx2
        · exact hle
        · exact le_trans hle ((List.pairwise_cons.mp h).1 x hx2)
      · rename_i hgt
        rw [List.pairwise_cons]
        obtain ⟨hb, hbs⟩ := List.pairwise_cons.mp h
        refine ⟨?_, ih hbs⟩
        intro x hx
        rcases (insertBy_mem key a bs x).mp hx with rfl | hx2
        · exact le_of_not_le hgt
        · exact hb x hx2

theorem sortOn_sorted {α : Type} (key : α → ℕ) (l : List α) :
    List.Pairwise (fun x y => key x ≤ key y) (sortOn key l) := by
  induction l with
  | nil => simp [sortOn]
  | cons a rest ih =>
      show List.Pairwise _ (insertBy key a (sortOn key rest))
      exact insertBy_sorted key a _ ih

theorem sortOn_eq_self {α : Type} (key : α → ℕ) :
    ∀ l : List α, List.Pairwise (fun x y : α => key x ≤ key y) l → sortOn key l = l := by
  intro l
  induction l with
  | nil => intro _; rfl
  | cons a rest ih =>
      intro h
      obtain ⟨ha, hrest⟩ := List.pairwise_cons.mp h
      show insertBy key a (sortOn key rest) = a :: rest
      rw [ih hrest]
      cases rest with
      | nil => rfl
      | cons b bs =>
          unfold insertBy
          rw [if_pos (ha b (List.mem_cons_self _ _))]

/-! Projections of `generate` (the template variables), as rewrite equations. -/

theorem generate_fst_known (ord : List String) (st : ProcState) (lhs rhs : Profile) :
    (generate ord st lhs rhs).1.known
      = (runProfiles (inclOf st lhs) st.known lhs rhs).known := rfl

theorem generate_fst_incl (ord : List String) (st : ProcState) (lhs rhs : Profile) :
    (generate ord st lhs rhs).1.trace_is_inclusive = inclOf st lhs := rfl

theorem generate_succ_skel (ord : List String) (st : ProcState) (lhs rhs : Profile) :
    (generate ord st lhs rhs).2.succ_skel
      = encSkeleton (runProfiles (inclOf st lhs) st.known lhs rhs).graph := rfl

theorem generate_succ_vecs (ord : List String) (st : ProcState) (lhs rhs : Profile) :
    (generate ord st lhs rhs).2.succ_vecs
      = emittedVecs ord (runProfiles (inclOf st lhs) st.known lhs rhs).graph LType.succs := rfl

theorem generate_pred_vecs (ord : List String) (st : ProcState) (lhs rhs : Profile) :
    (generate ord st lhs rhs).2.pred_vecs
      = emittedVecs ord (runProfiles (inclOf st lhs) st.known lhs rhs).graph LType.preds := rfl

theorem generate_statsTab (ord : List String) (st : ProcState) (lhs rhs : Profile) :
    (generate ord st lhs rhs).2.statsTab
      = (sortOn Prod.snd
          (encTable ord (runProfiles (inclOf st lhs) st.known lhs rhs).graph LType.preds
            (encTable ord (runProfiles (inclOf st lhs) st.known lhs rhs).graph LType.succs
              []))).map Prod.fst := rfl

theorem generate_nodesTab (ord : List String) (st : ProcState) (lhs rhs : Profile) :
    (generate ord st lhs rhs).2.nodesTab
      = (sortOn Prod.snd
          (runProfiles (inclOf st lhs) st.known lhs rhs).graph.uid_to_id).map Prod.fst := rfl

theorem generate_node_map (ord : List String) (st : ProcState) (lhs rhs : Profile) :
    (generate ord st lhs rhs).2.node_map
      = (sortOn
          (fun p => (runProfiles (inclOf st lhs) st.known lhs rhs).graph.translate_node p.1)
          (runProfiles (inclOf st lhs) st.known lhs rhs).graph.uid_to_nodes).map
          (fun p => sortOn id (p.2.map (fun n => n.pos))) := rfl

/-! Concrete fixtures used by the counterexamples and witnesses. -/

/-- The empty processing state of a fresh run. -/
def gs0 : GState := ⟨Graph.empty, []⟩

/-- The process-global state of a fresh Python process: default config, empty
`KnownStats`. -/
def ps0 : ProcState := ⟨false, []⟩

/-- Record with uid `a`, trace `[x, y]` and metric `cost = 1`. -/
def rA : Resource := ⟨Val.vstr "a", [Val.vstr "x", Val.vstr "y"], [("cost", Val.vnum 1)]⟩

/-- Record with uid `y`, trace `[a]` and metric `cost = 2`. -/
def rY : Resource := ⟨Val.vstr "y", [Val.vstr "a"], [("cost", Val.vnum 2)]⟩

/-- Record whose uid is the numeric string `"3"` (which `float(...)` converts),
with trace `[a]` and metric `cost = 10`. -/
def rNum : Resource := ⟨Val.vstr "3", [Val.vstr "a"], [("cost", Val.vnum 10)]⟩

/-- Profile containing `rA` then `rY`: uid `a` is first created at position 2
and later at position 0. -/
def pOrder : Profile := ⟨none, [rA, rY]⟩

/-- A profile with no resources. -/
def pEmpty : Profile := ⟨none, []⟩

/-- Baseline end-to-end profile: one record `uid f, trace [main], cost 5`. -/
def pCostL : Profile := ⟨none, [⟨Val.vstr "f", [Val.vstr "main"], [("cost", Val.vnum 5)]⟩]⟩

/-- Target end-to-end profile: one record `uid f, trace [main], cost 8`. -/
def pCostR : Profile := ⟨none, [⟨Val.vstr "f", [Val.vstr "main"], [("cost", Val.vnum 8)]⟩]⟩

/-- A kperf-collected baseline: collector name `kperf`, one record with metric
`m1`. -/
def pKperf : Profile := ⟨some "kperf", [⟨Val.vstr "p", [Val.vstr "q"], [("m1", Val.vnum 10)]⟩]⟩

/-- Second-run baseline: one record `uid c, trace [a, b], cost 7`. -/
def pQ : Profile := ⟨none, [⟨Val.vstr "c", [Val.vstr "a", Val.vstr "b"], [("cost", Val.vnum 7)]⟩]⟩

/-- C2: for every graph populated solely by trace expansion over any pair of
profiles (any inclusiveness, any prior registry), every stored successor link
goes from position `p` to `p + 1` and every stored predecessor link from `p`
to `p - 1`; consequently both `assert` statements of `to_jinja_string`
(checked by `encAssert` along the encoder's own iteration) succeed in both
directions. -/
theorem C2_adjacency (incl : Bool) (known0 : List String) (lhs rhs : Profile) :
    (∀ e ∈ (runProfiles incl known0 lhs rhs).graph.succs, e.1.2.pos = e.1.1.pos + 1)
    ∧ (∀ e ∈ (runProfiles incl known0 lhs rhs).graph.preds, e.1.1.pos = e.1.2.pos + 1)
    ∧ encAssert (runProfiles incl known0 lhs rhs).graph LType.succs = true
    ∧ encAssert (runProfiles incl known0 lhs rhs).graph LType.preds = true := by
  have h : AdjInv (runProfiles incl known0 lhs rhs).graph := AdjInv_runProfiles incl known0 lhs rhs
  exact ⟨h.1, h.2, encAssert_of_AdjInv _ _ h, encAssert_of_AdjInv _ _ h⟩

/-- Closed instance of `C2_adjacency` on a concrete pair of profiles. -/
theorem C2_adjacency_witness :
    encAssert (runProfiles false [] pOrder pEmpty).graph LType.succs = true
    ∧ encAssert (runProfiles false [] pOrder pEmpty).graph LType.preds = true :=
  ⟨(C2_adjacency false [] pOrder pEmpty).2.2.1, (C2_adjacency false [] pOrder pEmpty).2.2.2⟩

/-- C4: over any sequence of `get_node` calls from the empty graph, the
uid-to-compact-id table has pairwise-distinct uids, its ids are exactly the
positions `0, 1, …` in first-seen order (so distinct uids get distinct ids and
the same uid always reads the same id), the uid key sequence is the first-seen
subsequence of the queried uids, any further call only appends to the table
(ids are never reused or renumbered), the node table holds at most one node
per positional identity, and a repeated call for the same identity returns the
same state (hence the same node). -/
theorem C4_compact_ids (ks : List NKey) :
    ((ks.foldl Graph.get_node Graph.empty).uid_to_id.map Prod.fst).Nodup
    ∧ (ks.foldl Graph.get_node Graph.empty).uid_to_id.map Prod.snd
        = List.range (ks.foldl Graph.get_node Graph.empty).uid_to_id.length
    ∧ (ks.foldl Graph.get_node Graph.empty).uid_to_id.map Prod.fst
        = firstSeen (ks.map NKey.uid)
    ∧ (∀ k : NKey, ∃ t, ((ks.foldl Graph.get_node Graph.empty).get_node k).uid_to_id
        = (ks.foldl Graph.get_node Graph.empty).uid_to_id ++ t)
    ∧ (ks.foldl Graph.get_node Graph.empty).nodes.Nodup
    ∧ (∀ k : NKey, ((ks.foldl Graph.get_node Graph.empty).get_node k).get_node k
        = (ks.foldl Graph.get_node Graph.empty).get_node k) := by
  have h : GInv (ks.foldl Graph.get_node Graph.empty) :=
    foldl_inv GInv Graph.get_node (fun g k hg => GInv_get_node g k hg) ks _ GInv_empty
  refine ⟨h.2.1, h.1, ?_, fun k => get_node_uid_to_id_extends _ k, h.2.2.2.1,
    fun k => get_node_idem _ k⟩
  have hk := foldl_get_node_keys ks Graph.empty
  unfold firstSeen
  exact hk

/-- Closed instance of `C4_compact_ids` on a concrete call sequence. -/
theorem C4_compact_ids_witness :
    (([⟨"a", 2⟩, ⟨"b", 1⟩, ⟨"a", 0⟩] : List NKey).foldl Graph.get_node
        Graph.empty).uid_to_id.map Prod.fst
      = firstSeen (([⟨"a", 2⟩, ⟨"b", 1⟩, ⟨"a", 0⟩] : List NKey).map NKey.uid) :=
  (C4_compact_ids [⟨"a", 2⟩, ⟨"b", 1⟩, ⟨"a", 0⟩]).2.2.1

/-- C6: over any sequence of edge accumulations from the empty state, the
predecessor-direction stats of `(tgt → src)` are identical to the
successor-direction stats of `(src → tgt)` — every accumulation writes both in
tandem — and accumulating the triple `(role, m, v)` `k` times on one edge
yields the running sum `k * v` on both reciprocal sides. -/
theorem C6_stats_additivity :
    (∀ (calls : List EdgeCall) (src tgt : NKey),
        predStats? (applyEdgeCalls gs0 calls).graph tgt src
          = succStats? (applyEdgeCalls gs0 calls).graph src tgt)
    ∧ (∀ (k : ℕ) (role : Role) (m : String) (v : ℚ) (src tgt : NKey),
        succVal (applyEdgeCalls gs0
            (List.replicate k ⟨role, [(m, Val.vnum v)], src, tgt⟩)).graph src tgt role m
          = k * v
        ∧ predVal (applyEdgeCalls gs0
            (List.replicate k ⟨role, [(m, Val.vnum v)], src, tgt⟩)).graph tgt src role m
          = k * v) := by
  constructor
  · intro calls src tgt
    exact mirror_stats _ src tgt (MirrorInv_applyEdgeCalls gs0 calls MirrorInv_empty)
  · intro k role m v src tgt
    constructor
    · rw [replicate_edge_succVal role m v src tgt k gs0,
        show succVal gs0.graph src tgt role m = 0 from rfl, zero_add]
    · rw [replicate_edge_predVal role m v src tgt k gs0,
        show predVal gs0.graph tgt src role m = 0 from rfl, zero_add]

/-- Closed instance of `C6_stats_additivity`: three accumulations of
`(baseline, cost, 5)` on one edge sum to 15 on both sides. -/
theorem C6_stats_additivity_witness :
    succVal (applyEdgeCalls gs0
        (List.replicate 3 ⟨Role.baseline, [("cost", Val.vnum 5)], ⟨"a", 0⟩, ⟨"b", 1⟩⟩)).graph
        ⟨"a", 0⟩ ⟨"b", 1⟩ Role.baseline "cost"
      = 3 * 5
    ∧ predVal (applyEdgeCalls gs0
        (List.replicate 3 ⟨Role.baseline, [("cost", Val.vnum 5)], ⟨"a", 0⟩, ⟨"b", 1⟩⟩)).graph
        ⟨"b", 1⟩ ⟨"a", 0⟩ Role.baseline "cost"
      = 3 * 5 := by
  have h := C6_stats_additivity.2 3 Role.baseline "cost" 5 ⟨"a", 0⟩ ⟨"b", 1⟩
  exact ⟨by rw [h.1]; norm_num, by rw [h.2]; norm_num⟩

/-- C1: trace expansion of one record.  With `ft = map to_uid trace ++
[to_uid uid]` and `n = ft.length = len(trace) + 1`: `process_record` performs
exactly one `process_edge` call per expanded edge, each carrying the record's
full top-level dict; no edges when `n ≤ 1`; in exclusive mode exactly the
single edge `ft[n-2]#(n-2) → ft[n-1]#(n-1)`; in inclusive mode exactly the
`n - 1` edges `ft[i]#i → ft[i+1]#(i+1)`. -/
theorem C1_trace_expansion (incl : Bool) (st : GState) (role : Role) (r : Resource) :
    (fullTrace r).length = r.trace.length + 1
    ∧ (process_record incl st role r
        = (record_edge_calls incl r).foldl
            (fun s e => process_edge s role r.entries e.1 e.2) st)
    ∧ ((fullTrace r).length ≤ 1 → record_edge_calls incl r = [])
    ∧ (incl = false → 2 ≤ (fullTrace r).length →
        record_edge_calls incl r
          = [(⟨(fullTrace r).getD ((fullTrace r).length - 2) "", (fullTrace r).length - 2⟩,
              ⟨(fullTrace r).getD ((fullTrace r).length - 1) "", (fullTrace r).length - 1⟩)])
    ∧ (incl = true → 2 ≤ (fullTrace r).length →
        (record_edge_calls incl r).length = (fullTrace r).length - 1
        ∧ ∀ i, i < (fullTrace r).length - 1 →
            (record_edge_calls incl r).getD i (⟨"", 0⟩, ⟨"", 0⟩)
              = (⟨(fullTrace r).getD i "", i⟩,
                 ⟨(fullTrace r).getD (i + 1) "", i + 1⟩)) := by
  refine ⟨?_, ?_, ?_, ?_, ?_⟩
  · simp [fullTrace]
  · simp only [process_record, record_edge_calls, traceEdges]
    by_cases hn : 1 < (fullTrace r).length
    · rw [if_pos hn, if_pos hn]
      cases incl
      · simp only [Bool.false_eq_true, if_false, List.foldl_cons, List.foldl_nil]
      · simp only [if_true, List.foldl_map]
    · rw [if_neg hn, if_neg hn]
      rw [List.foldl_nil]
  · intro hle
    simp only [record_edge_calls, traceEdges]
    have hneg : ¬(1 < (fullTrace r).length) := by omega
    rw [if_neg hneg]
  · intro hincl hge
    subst hincl
    simp only [record_edge_calls, traceEdges]
    have hpos : 1 < (fullTrace r).length := by omega
    rw [if_pos hpos]
    simp only [Bool.false_eq_true, if_false]
  · intro hincl hge
    subst hincl
    simp only [record_edge_calls, traceEdges]
    have hpos : 1 < (fullTrace r).length := by omega
    rw [if_pos hpos]
    simp only [if_true]
    constructor
    · simp
    · intro i hi
      have hlt : i < (fullTrace r).length - 1 := by omega
      rw [List.getD_eq_getElem?_getD, List.getElem?_map, List.getElem?_range hlt]
      rfl

/-- Closed instance of `C1_trace_expansion` on the record `rA` (trace
`[x, y]`, uid `a`): the exclusive expansion is the single final edge and the
inclusive expansion has two edges. -/
theorem C1_trace_expansion_witness :
    process_record true gs0 Role.baseline rA
        = (record_edge_calls true rA).foldl
            (fun s e => process_edge s Role.baseline rA.entries e.1 e.2) gs0
    ∧ record_edge_calls false rA = [(⟨"y", 1⟩, ⟨"a", 2⟩)]
    ∧ (record_edge_calls true rA).length = 2 := by
  refine ⟨(C1_trace_expansion true gs0 Role.baseline rA).2.1, ?_, ?_⟩
  · have h := (C1_trace_expansion false gs0 Role.baseline rA).2.2.2.1 rfl (by decide)
    rw [h]
    decide
  · have h := ((C1_trace_expansion true gs0 Role.baseline rA).2.2.2.2 rfl (by decide)).1
    rw [h]
    decide

/-- C3 counterexample: after processing `rA` (creating node `a#2`) and then
`rY` (creating node `a#0`), the encoder's iteration lists the positions of uid
`a` as `[2, 0]` — first-creation order, not ascending numeric order — so the
serialized encoding does not list each uid's positions in ascending order. -/
theorem C3_counterexample :
    (encSkeleton (runProfiles false [] pOrder pEmpty).graph).map (fun p => p.2)
        = [[1], [2, 0]]
    ∧ ¬ List.Pairwise (fun x y : ℕ => x ≤ y) [2, 0] := by
  constructor
  · decide
  · decide

/-- C3 amended: the serialized encoding lists uids in ascending
uid-compact-id order (the emitted uid ids are exactly `0, 1, …` in iteration
order), and within each uid it lists that uid's positional nodes in first-
creation order — the global node-creation order restricted to that uid — not
necessarily ascending by position. -/
theorem C3_amended (incl : Bool) (known0 : List String) (lhs rhs : Profile) :
    (encSkeleton (runProfiles incl known0 lhs rhs).graph).map Prod.fst
        = List.range (runProfiles incl known0 lhs rhs).graph.uid_to_id.length
    ∧ ∀ p ∈ (runProfiles incl known0 lhs rhs).graph.uid_to_nodes,
        p.2 = (runProfiles incl known0 lhs rhs).graph.nodes.filter
          (fun n => n.uid = p.1) := by
  have h := GInv_runProfiles incl known0 lhs rhs
  exact ⟨encSkeleton_ids _ h, h.2.2.2.2.1⟩

/-- Closed instance of `C3_amended` on the counterexample graph. -/
theorem C3_amended_witness :
    (encSkeleton (runProfiles false [] pOrder pEmpty).graph).map Prod.fst
        = List.range (runProfiles false [] pOrder pEmpty).graph.uid_to_id.length
    ∧ ([⟨"a", 2⟩, ⟨"a", 0⟩] : List NKey)
        = (runProfiles false [] pOrder pEmpty).graph.nodes.filter
            (fun n => n.uid = "a") := by
  refine ⟨(C3_amended false [] pOrder pEmpty).1, ?_⟩
  have h := (C3_amended false [] pOrder pEmpty).2 ("a", [⟨"a", 2⟩, ⟨"a", 0⟩]) (by decide)
  exact h

/-- C5 counterexample: `process_edge` iterates over ALL top-level keys of the
resource dict, including `uid` and `trace`; for the record `rNum` whose uid is
the numeric string `"3"` (which converts to a float), the key `"uid"` is
registered in the metric registry and contributes the value 3 to the edge
stats — contradicting the claim that the `uid` key never contributes. -/
theorem C5_counterexample :
    "uid" ∈ (process_record false gs0 Role.baseline rNum).known
    ∧ succVal (process_record false gs0 Role.baseline rNum).graph ⟨"a", 0⟩ ⟨"3", 1⟩
        Role.baseline "uid" = 3 := by
  constructor
  · decide
  · decide

/-- C5 amended: accumulating one record's entries on an edge adds exactly the
top-level keys whose values convert to a number — `uid` and `trace` are not
excluded, they are merely skipped whenever their values fail to convert — and
a value that cannot be converted is skipped for that key only (contributing
0), without aborting the rest of the record: the registry after the call
contains precisely the old registry plus the convertible keys, and every
metric sum grows by exactly the record's convertible contribution under that
key. -/
theorem C5_amended (st : GState) (pt : Role) (res : List (String × Val)) (src tgt : NKey) :
    (∀ k, k ∈ (process_edge st pt res src tgt).known
        ↔ k ∈ st.known ∨ ∃ v, (k, v) ∈ res ∧ (try_convert v).isSome = true)
    ∧ (∀ m, succVal (process_edge st pt res src tgt).graph src tgt pt m
        = succVal st.graph src tgt pt m + contrib res m)
    ∧ (∀ m, predVal (process_edge st pt res src tgt).graph tgt src pt m
        = predVal st.graph tgt src pt m + contrib res m) :=
  ⟨fun k => process_edge_known_mem st pt res src tgt k,
   fun m => process_edge_succVal st pt res src tgt m,
   fun m => process_edge_predVal st pt res src tgt m⟩

/-- Closed instance of `C5_amended`: processing `rNum`'s full dict on the edge
`a#0 → 3#1` registers exactly the convertible keys (`uid` among them, since
`"3"` converts; `trace` not, since a list does not convert). -/
theorem C5_amended_witness :
    ("uid" ∈ (process_edge gs0 Role.baseline rNum.entries ⟨"a", 0⟩ ⟨"3", 1⟩).known
      ↔ "uid" ∈ gs0.known
        ∨ ∃ v, ("uid", v) ∈ rNum.entries ∧ (try_convert v).isSome = true)
    ∧ succVal (process_edge gs0 Role.baseline rNum.entries ⟨"a", 0⟩ ⟨"3", 1⟩).graph
          ⟨"a", 0⟩ ⟨"3", 1⟩ Role.baseline "trace"
        = succVal gs0.graph ⟨"a", 0⟩ ⟨"3", 1⟩ Role.baseline "trace"
          + contrib rNum.entries "trace" :=
  ⟨(C5_amended gs0 Role.baseline rNum.entries ⟨"a", 0⟩ ⟨"3", 1⟩).1 "uid",
   (C5_amended gs0 Role.baseline rNum.entries ⟨"a", 0⟩ ⟨"3", 1⟩).2.1 "trace"⟩

theorem emittedVecs_length (ord : List String) (g : Graph) (lt : LType) :
    ∀ vec ∈ emittedVecs ord g lt, vec.length = 2 * ord.length := by
  intro vec hv
  rcases List.mem_map.mp hv with ⟨t, _, rfl⟩
  simp [Stats.to_array, two_mul]

/-- C7: once both profiles are processed (starting from any duplicate-free
registry), the registry is duplicate-free — so its length is the number of
registered metrics — and for any iteration order of it, every stats vector
emitted during encoding (in both directions) has exactly
`2 * |metric registry|` entries. -/
theorem C7_vector_length (st : ProcState) (lhs rhs : Profile) (ord : List String)
    (h0 : st.known.Nodup)
    (hord : validEnum (generate ord st lhs rhs).1.known ord) :
    ((generate ord st lhs rhs).1.known).Nodup
    ∧ (∀ vec ∈ (generate ord st lhs rhs).2.succ_vecs,
        vec.length = 2 * ((generate ord st lhs rhs).1.known).length)
    ∧ (∀ vec ∈ (generate ord st lhs rhs).2.pred_vecs,
        vec.length = 2 * ((generate ord st lhs rhs).1.known).length) := by
  have hord2 : List.Perm ord ((generate ord st lhs rhs).1.known) := hord
  have hlen : ord.length = ((generate ord st lhs rhs).1.known).length :=
    List.Perm.length_eq hord2
  refine ⟨?_, ?_, ?_⟩
  · rw [generate_fst_known]
    exact known_nodup_runProfiles _ _ _ _ h0
  · intro vec hv
    rw [generate_succ_vecs] at hv
    rw [← hlen]
    exact emittedVecs_length ord _ _ vec hv
  · intro vec hv
    rw [generate_pred_vecs] at hv
    rw [← hlen]
    exact emittedVecs_length ord _ _ vec hv

/-- Closed instance of `C7_vector_length` on the end-to-end fixture. -/
theorem C7_vector_length_witness :
    ((generate ["cost"] ps0 pCostL pCostR).1.known).Nodup
    ∧ ∀ vec ∈ (generate ["cost"] ps0 pCostL pCostR).2.succ_vecs,
        vec.length = 2 * ((generate ["cost"] ps0 pCostL pCostR).1.known).length := by
  have h := C7_vector_length ps0 pCostL pCostR ["cost"] (by decide) (by decide)
  exact ⟨h.1, h.2.1⟩

/-- Stats fixture whose baseline map was filled in the order `b` then `a`. -/
def sEx : Stats := ⟨[("b", 1), ("a", 2)], []⟩

/-- C8 counterexample: `Stats.KnownStats` is a Python `set`, so its iteration
order is an unspecified enumeration of its contents, not the insertion order.
After registering `b` then `a` (contents `addKnown (addKnown [] "b") "a"`,
insertion order `["b", "a"]`), the order `["a", "b"]` is an equally valid set
iteration order, and `to_array` emits a different vector under it — so the
claim that the output is emitted in first-seen (insertion) order does not hold
of the code. -/
theorem C8_counterexample :
    validEnum (addKnown (addKnown [] "b") "a") ["a", "b"]
    ∧ (["a", "b"] : List String) ≠ ["b", "a"]
    ∧ Stats.to_array sEx ["a", "b"] Role.baseline
        ≠ Stats.to_array sEx ["b", "a"] Role.baseline := by
  refine ⟨by decide, by decide, ?_⟩
  decide

/-- C8 amended: `to_array` emits one formatted number per metric of the
registry in the set's iteration order `ord` — an enumeration of the registry
that need not be first-seen order — with slot `i` holding the formatted sum of
metric `ord[i]` (0 when that metric is absent from the accumulator), and one
single `ord` fixes the slot order identically for every vector emitted during
encoding. -/
theorem C8_amended (ord : List String) (s : Stats) (role : Role) (i : ℕ)
    (h : i < ord.length) :
    (Stats.to_array s ord role).length = ord.length
    ∧ (Stats.to_array s ord role).getD i ""
        = compact_convert_num_to_str (lookupD (s.statsOf role) (ord.getD i ""))
    ∧ (ord.getD i "" ∉ (s.statsOf role).map Prod.fst →
        (Stats.to_array s ord role).getD i "" = compact_convert_num_to_str 0)
    ∧ (∀ g lt, emittedVecs ord g lt
        = (emittedStats g lt).map
            (fun t => Stats.to_array t ord Role.baseline
              ++ Stats.to_array t ord Role.target)) := by
  have hgd : (Stats.to_array s ord role).getD i ""
      = compact_convert_num_to_str (lookupD (s.statsOf role) (ord.getD i "")) := by
    simp [Stats.to_array, List.getD_eq_getElem?_getD, List.getElem?_map,
      List.getElem?_eq_getElem h]
  refine ⟨by simp [Stats.to_array], hgd, ?_, fun g lt => rfl⟩
  intro hnot
  rw [hgd, lookupD_eq_zero_of_not_mem _ _ hnot]

/-- Closed instance of `C8_amended` at slot 1 of a two-metric order. -/
theorem C8_amended_witness :
    (Stats.to_array sEx ["a", "b"] Role.baseline).length = 2
    ∧ (Stats.to_array sEx ["a", "b"] Role.target).getD 1 ""
        = compact_convert_num_to_str 0 := by
  have h := C8_amended ["a", "b"] sEx Role.target 1 (by decide)
  exact ⟨(C8_amended ["a", "b"] sEx Role.baseline 1 (by decide)).1,
    h.2.2.1 (by decide)⟩

/-- The pairwise ordering induced by an id assignment that equals the position
range. -/
theorem pairwise_key_of_map_range {α : Type} (key : α → ℕ) (l : List α)
    (h : l.map key = List.range l.length) :
    List.Pairwise (fun x y => key x ≤ key y) l := by
  have hp : List.Pairwise (fun x y : ℕ => x < y) (l.map key) := by
    rw [h]
    exact List.pairwise_lt_range _
  rw [List.pairwise_map] at hp
  exact hp.imp le_of_lt

/-- C9 counterexample: on the end-to-end fixture the metric registry is
`["cost"]`, but the rendered `stats` side table is the list of interned
stats-vector strings, not the list of metric names: it differs from
`["cost"]`. -/
theorem C9_counterexample :
    (generate ["cost"] ps0 pCostL pCostR).1.known = ["cost"]
    ∧ (generate ["cost"] ps0 pCostL pCostR).2.statsTab ≠ ["cost"] := by
  constructor
  · decide
  · decide

/-- C9 amended: the `stats` side table is the ordered list of interned
stats-vector strings in stats-compact-id order — equivalently first-emission
order over the successor pass followed by the predecessor pass (no metric-name
list is emitted) — while `nodes` lists the uids in compact-id order and
`node_map` lists, per uid in compact-id order, the ascending-sorted positions
of that uid. -/
theorem C9_amended (ord : List String) (st : ProcState) (lhs rhs : Profile) :
    (generate ord st lhs rhs).2.statsTab
      = firstSeen
          (emittedKeys ord (runProfiles (inclOf st lhs) st.known lhs rhs).graph LType.succs
            ++ emittedKeys ord (runProfiles (inclOf st lhs) st.known lhs rhs).graph
              LType.preds)
    ∧ (generate ord st lhs rhs).2.nodesTab
      = (runProfiles (inclOf st lhs) st.known lhs rhs).graph.uid_to_id.map Prod.fst
    ∧ (generate ord st lhs rhs).2.node_map
      = (runProfiles (inclOf st lhs) st.known lhs rhs).graph.uid_to_nodes.map
          (fun p => sortOn id (p.2.map (fun n => n.pos)))
    ∧ (∀ l ∈ (generate ord st lhs rhs).2.node_map,
        List.Pairwise (fun x y : ℕ => x ≤ y) l) := by
  have hg := GInv_runProfiles (inclOf st lhs) st.known lhs rhs
  refine ⟨?_, ?_, ?_, ?_⟩
  · have hsnd : (encTable ord (runProfiles (inclOf st lhs) st.known lhs rhs).graph
        LType.preds (encTable ord (runProfiles (inclOf st lhs) st.known lhs rhs).graph
          LType.succs [])).map Prod.snd
        = List.range (encTable ord (runProfiles (inclOf st lhs) st.known lhs rhs).graph
            LType.preds (encTable ord (runProfiles (inclOf st lhs) st.known lhs rhs).graph
              LType.succs [])).length :=
      encTable_snd _ _ _ _ (encTable_snd _ _ _ _ rfl)
    rw [generate_statsTab,
      sortOn_eq_self Prod.snd _ (pairwise_key_of_map_range Prod.snd _ hsnd),
      encTable_fst, encTable_fst]
    unfold firstSeen
    rw [List.foldl_append]
    rfl
  · rw [generate_nodesTab,
      sortOn_eq_self Prod.snd _ (pairwise_key_of_map_range Prod.snd _ hg.1)]
  · have hlen2 : (runProfiles (inclOf st lhs) st.known lhs rhs).graph.uid_to_nodes.length
        = (runProfiles (inclOf st lhs) st.known lhs rhs).graph.uid_to_id.length := by
      have hc := congrArg List.length hg.2.2.1
      simpa using hc
    have hmapr : (runProfiles (inclOf st lhs) st.known lhs rhs).graph.uid_to_nodes.map
        (fun p => (runProfiles (inclOf st lhs) st.known lhs rhs).graph.translate_node p.1)
        = List.range
            (runProfiles (inclOf st lhs) st.known lhs rhs).graph.uid_to_nodes.length := by
      rw [translate_map _ hg, hlen2]
    rw [generate_node_map,
      sortOn_eq_self _ _ (pairwise_key_of_map_range _ _ hmapr)]
  · intro l hl
    rw [generate_node_map] at hl
    rcases List.mem_map.mp hl with ⟨p, _, rfl⟩
    exact sortOn_sorted id _

/-- Closed instance of `C9_amended` on the end-to-end fixture. -/
theorem C9_amended_witness :
    (generate ["cost"] ps0 pCostL pCostR).2.nodesTab
        = (runProfiles (inclOf ps0 pCostL) ps0.known pCostL pCostR).graph.uid_to_id.map
            Prod.fst
    ∧ ∀ l ∈ (generate ["cost"] ps0 pCostL pCostR).2.node_map,
        List.Pairwise (fun x y : ℕ => x ≤ y) l :=
  ⟨(C9_amended ["cost"] ps0 pCostL pCostR).2.1,
   (C9_amended ["cost"] ps0 pCostL pCostR).2.2.2⟩

/-- The process-global state left behind by a first diff run whose baseline
was collected by kperf. -/
def st1 : ProcState := (generate ["m1"] ps0 pKperf pEmpty).1

/-- C10: `Config` and `Stats.KnownStats` are process-global mutable state.
After a first run with a kperf baseline, the singleton flag
`trace_is_inclusive` stays `true` and metric `m1` stays registered; a second
run on fresh inputs then differs from the same inputs in a fresh process
(whatever set-iteration orders are used: the second run builds the inclusive
expansion, the fresh process the exclusive one), and `m1` occupies a slot in
every stats vector of the second run's encoding (it belongs to every valid
iteration order of the second run's registry, whose positions index the
vectors). -/
theorem C10_global_state :
    st1.trace_is_inclusive = true
    ∧ st1.known = ["m1"]
    ∧ (∀ ordA ordB : List String,
        (generate ordA st1 pQ pEmpty).2 ≠ (generate ordB ps0 pQ pEmpty).2)
    ∧ (∀ ord : List String,
        validEnum (generate ["m1", "cost"] st1 pQ pEmpty).1.known ord → "m1" ∈ ord) := by
  refine ⟨by decide, by decide, ?_, ?_⟩
  · intro ordA ordB h
    have hA : (generate ordA st1 pQ pEmpty).2.succ_skel = [(0, [0]), (1, [1]), (2, [2])] := by
      rw [generate_succ_skel]
      decide
    have hB : (generate ordB ps0 pQ pEmpty).2.succ_skel = [(0, [1]), (1, [2])] := by
      rw [generate_succ_skel]
      decide
    rw [h] at hA
    have hAB := hA.symm.trans hB
    exact absurd hAB (by decide)
  · intro ord hv
    have hv2 : List.Perm ord ((generate ["m1", "cost"] st1 pQ pEmpty).1.known) := hv
    have hm : "m1" ∈ (generate ["m1", "cost"] st1 pQ pEmpty).1.known := by decide
    exact hv2.mem_iff.mpr hm

/-- Closed instance of `C10_global_state`: the concrete iteration order
`["m1", "cost"]` of the second run's registry indeed contains `m1`, and the
flag persisted. -/
theorem C10_global_state_witness :
    st1.trace_is_inclusive = true ∧ "m1" ∈ (["m1", "cost"] : List String) :=
  ⟨C10_global_state.1, C10_global_state.2.2.2 ["m1", "cost"] (by decide)⟩

end Perun